import Mathlib

/-!
# ghfs: a read-only file system over a repository content API

A shallow embedding of `ghfs.go`.  Go values are modelled as follows:

* `int` (taken as 64 bits wide) and `int64` are `Int`; every Go addition or
  subtraction is followed by `wrap64`, the two's-complement reduction to 64
  bits, and the length of a string or slice is at most `maxInt64`;
* a Go `string` used as file content and a `[]byte` are `List Byte`;
* a Go `error` is `Option Error` (`none` is `nil`);
* a run-time panic (slice or index out of range, `make` with a negative
  length) is the `none` of an outer `Option`;
* a method with a pointer receiver returns the updated receiver next to its
  Go results.
-/

namespace Ghfs

/-! ## Machine integers -/

/-- Two's-complement reduction of an integer to the range of `int64`. -/
def wrap64 (x : Int) : Int := (x + 2 ^ 63) % 2 ^ 64 - 2 ^ 63

/-- The largest Go `int` / `int64`. -/
def maxInt64 : Int := 2 ^ 63 - 1

/-- The smallest Go `int` / `int64`. -/
def minInt64 : Int := -(2 ^ 63)

/-- The values an `int64` variable can hold. -/
def isInt64 (x : Int) : Prop := minInt64 ≤ x ∧ x ≤ maxInt64

instance (x : Int) : Decidable (isInt64 x) := by
  unfold isInt64; exact inferInstance

/-! ## Bytes, slices and errors -/

/-- One byte of a Go `string` or `[]byte`. -/
abbrev Byte := Fin 256

/-- The sentinel errors wrapped by a `fs.PathError` in `ghfs.go`. -/
inductive Errno where
  /-- The sentinel `fs.ErrInvalid`. -/
  | invalid
  /-- The sentinel `fs.ErrNotExist`. -/
  | notExist
  /-- An error made by `errors.New(msg)`. -/
  | other (msg : String)
  deriving DecidableEq, Repr

/-- The errors returned by the package. -/
inductive Error where
  /-- The sentinel `io.EOF`. -/
  | eof
  /-- A `fs.PathError` with the fields `Op`, `Path` and `Err`. -/
  | pathError (op : String) (path : String) (err : Errno)
  /-- An error produced by the content API client (`GetContents`, `GetContent`). -/
  | upstream (msg : String)
  deriving DecidableEq, Repr

/-- The slice expression `s[i:]`: `none` is the out-of-range panic. -/
def sliceFrom (s : List Byte) (i : Int) : Option (List Byte) :=
  if 0 ≤ i ∧ i ≤ (s.length : Int) then some (s.drop i.toNat) else none

/-- The builtin `copy(dst, src)`: the number of bytes copied and `dst` afterwards. -/
def copy (dst src : List Byte) : Nat × List Byte :=
  let n := min dst.length src.length
  (n, src.take n ++ dst.drop n)

/-! ## Remote entries and their metadata -/

/-- A `github.RepositoryContent` as seen through its accessors: `GetName`,
`GetSize`, `GetType` and the fallible `GetContent`. -/
structure RepositoryContent where
  name : String
  size : Int
  type : String
  content : Except Error (List Byte)

/-- The `repoContent` wrapper. -/
structure repoContent where
  c : RepositoryContent

/-- Method `repoContent.Name`. -/
def repoContent.Name (c : repoContent) : String := c.c.name

/-- Method `repoContent.Size`. -/
def repoContent.Size (c : repoContent) : Int := c.c.size

/-! ## File handles -/

/-- The `openFile` struct. -/
structure openFile where
  c : repoContent
  data : List Byte
  offset : Int

/-- What `Read` and `ReadAt` return: `n`, the error, the buffer afterwards and
the handle afterwards. -/
structure ReadResult where
  n : Int
  err : Option Error
  buf : List Byte
  file : openFile

/-- What `Seek` returns: the new offset, the error and the handle afterwards. -/
structure SeekResult where
  pos : Int
  err : Option Error
  file : openFile

/-- Method `openFile.Stat`. -/
def openFile.Stat (f : openFile) : repoContent × Option Error := (f.c, none)

/-- Method `openFile.Close`. -/
def openFile.Close (_f : openFile) : Option Error := none

/-- Method `openFile.Read`. -/
def openFile.Read (f : openFile) (b : List Byte) : Option ReadResult :=
  if f.offset ≥ (f.data.length : Int) then
    some ⟨0, some Error.eof, b, f⟩
  else if f.offset < 0 then
    some ⟨0, some (Error.pathError "read" f.c.Name Errno.invalid), b, f⟩
  else
    match sliceFrom f.data f.offset with
    | none => none
    | some src =>
      let r := copy b src
      some ⟨r.1, none, r.2, { f with offset := wrap64 (f.offset + (r.1 : Int)) }⟩

/-- The `switch whence` of `openFile.Seek`: the offset after the switch. -/
def seekTarget (f : openFile) (offset whence : Int) : Int :=
  if whence = 0 then offset
  else if whence = 1 then wrap64 (offset + f.offset)
  else if whence = 2 then wrap64 (offset + (f.data.length : Int))
  else offset

/-- Method `openFile.Seek`. -/
def openFile.Seek (f : openFile) (offset whence : Int) : SeekResult :=
  let offset := seekTarget f offset whence
  if offset < 0 ∨ offset > (f.data.length : Int) then
    ⟨0, some (Error.pathError "seek" f.c.Name Errno.invalid), f⟩
  else
    ⟨offset, none, { f with offset := offset }⟩

/-- Method `openFile.ReadAt`. -/
def openFile.ReadAt (f : openFile) (b : List Byte) (offset : Int) : Option ReadResult :=
  if offset < 0 ∨ offset > (f.data.length : Int) then
    some ⟨0, some (Error.pathError "read" f.c.Name Errno.invalid), b, f⟩
  else
    match sliceFrom f.data offset with
    | none => none
    | some src =>
      let r := copy b src
      if r.1 < b.length then some ⟨r.1, some Error.eof, r.2, f⟩
      else some ⟨r.1, none, r.2, f⟩

/-- The position a seek asks for, computed over the integers. -/
def seekPosition (f : openFile) (offset whence : Int) : Int :=
  if whence = 0 then offset
  else if whence = 1 then f.offset + offset
  else (f.data.length : Int) + offset

/-! ## Directory handles -/

/-- The `dir` struct: the synthetic metadata of an opened directory. -/
structure dir where
  name : String

/-- The `openDir` struct. -/
structure openDir where
  d : dir
  files : List repoContent
  offset : Int

/-- What `ReadDir` returns: the entries, the error and the handle afterwards. -/
structure ReadDirResult where
  list : List repoContent
  err : Option Error
  dir : openDir

/-- The index expression `xs[i]`: `none` is the out-of-range panic. -/
def index (xs : List repoContent) (i : Int) : Option repoContent :=
  if 0 ≤ i then xs[i.toNat]? else none

/-- Method `openDir.ReadDir`.  A `nil` slice and an empty one are both `[]`;
`make([]fs.DirEntry, n)` panics for a negative `n`. -/
def openDir.ReadDir (d : openDir) (count : Int) : Option ReadDirResult :=
  let n0 := wrap64 ((d.files.length : Int) - d.offset)
  let n := if count > 0 ∧ n0 > count then count else n0
  if n = 0 then
    if count ≤ 0 then some ⟨[], none, d⟩
    else some ⟨[], some Error.eof, d⟩
  else if n < 0 then none
  else
    match (List.range n.toNat).mapM
        (fun (i : Nat) => index d.files (wrap64 (d.offset + (i : Int)))) with
    | none => none
    | some list => some ⟨list, none, { d with offset := wrap64 (d.offset + n) }⟩

/-! ## The facade -/

/-- The `FS` struct.  The field `rs` stands for the call
`f.rs.GetContents(ctx, owner, repo, name, nil)` and gives its file
descriptor, its directory listing and its error. -/
structure FS where
  owner : String
  repo : String
  rs : String → String → String →
    Option RepositoryContent × Option (List RepositoryContent) × Option Error

/-- A `fs.File` returned by `Open`: one of the two handle types. -/
inductive File where
  | dirHandle (d : openDir)
  | fileHandle (f : openFile)

/-- Method `FS.getContents`; `validPath` is the standard library's `fs.ValidPath`. -/
def FS.getContents (validPath : String → Bool) (f : FS) (name : String) :
    Option RepositoryContent × Option (List RepositoryContent) × Option Error :=
  if !validPath name then
    (none, none, some (Error.pathError "open" name Errno.invalid))
  else
    let r := f.rs f.owner f.repo name
    match r.2.2 with
    | some err => (none, none, some err)
    | none => (r.1, r.2.1, none)

/-- Method `FS.Open`.  The outer `none` is the nil dereference of `fc.GetContent()`
when the client returned neither a file nor a listing. -/
def FS.Open (validPath : String → Bool) (f : FS) (name : String) :
    Option (Option File × Option Error) :=
  let r := f.getContents validPath name
  match r.2.2 with
  | some err => some (none, some err)
  | none =>
    match r.2.1 with
    | some dc =>
      some (some (File.dirHandle ⟨⟨name⟩, dc.map (fun c => ⟨c⟩), 0⟩), none)
    | none =>
      match r.1 with
      | none => none
      | some fc =>
        match fc.content with
        | Except.error err => some (none, some err)
        | Except.ok data => some (some (File.fileHandle ⟨⟨fc⟩, data, 0⟩), none)

/-- Method `FS.ReadFile`. -/
def FS.ReadFile (validPath : String → Bool) (f : FS) (name : String) :
    Option (List Byte) × Option Error :=
  let r := f.getContents validPath name
  match r.2.2 with
  | some err => (none, some err)
  | none =>
    match r.1 with
    | none => (none, some (Error.pathError "open" name Errno.notExist))
    | some fc =>
      match fc.content with
      | Except.error err => (none, some err)
      | Except.ok c => (some c, none)

/-! ## Sequences of calls -/

/-- One call on a file handle. -/
inductive FileOp where
  | read (b : List Byte)
  | seek (offset whence : Int)
  | readAt (b : List Byte) (offset : Int)
  | stat
  | close

/-- What one call on a file handle returned to its caller. -/
inductive FileRet where
  | read (n : Int) (err : Option Error) (buf : List Byte)
  | seek (pos : Int) (err : Option Error)
  | readAt (n : Int) (err : Option Error) (buf : List Byte)
  | stat (info : repoContent) (err : Option Error)
  | close (err : Option Error)

/-- Whether a call is a `ReadAt`. -/
def FileOp.isReadAt : FileOp → Bool
  | FileOp.readAt _ _ => true
  | _ => false

/-- Whether a returned value is that of a `ReadAt`. -/
def FileRet.isReadAt : FileRet → Bool
  | FileRet.readAt _ _ _ => true
  | _ => false

/-- One call: what it returns and the handle afterwards (`none`: a panic). -/
def stepFile (f : openFile) : FileOp → Option (FileRet × openFile)
  | FileOp.read b => (f.Read b).map (fun r => (FileRet.read r.n r.err r.buf, r.file))
  | FileOp.seek o w => let r := f.Seek o w; some (FileRet.seek r.pos r.err, r.file)
  | FileOp.readAt b o => (f.ReadAt b o).map (fun r => (FileRet.readAt r.n r.err r.buf, r.file))
  | FileOp.stat => some (FileRet.stat f.Stat.1 f.Stat.2, f)
  | FileOp.close => some (FileRet.close f.Close, f)

/-- A sequence of calls on one handle: everything returned, in order, and the
handle at the end (`none`: one of the calls panicked). -/
def runFile (f : openFile) : List FileOp → Option (List FileRet × openFile)
  | [] => some ([], f)
  | op :: ops =>
    match stepFile f op with
    | none => none
    | some (ret, f1) =>
      match runFile f1 ops with
      | none => none
      | some (rets, f2) => some (ret :: rets, f2)

/-- Calls `Read` with the buffers `bufs 0`, `bufs 1`, ... until a call returns
an error: what every call returned, in order, the call with the error last.
`none` when `fuel` calls did not reach an error, or a call panicked. -/
def readLoop (bufs : Nat → List Byte) : Nat → openFile → Option (List ReadResult)
  | 0, _ => none
  | fuel + 1, f =>
    match f.Read (bufs 0) with
    | none => none
    | some r =>
      match r.err with
      | some _ => some [r]
      | none =>
        match readLoop (fun i => bufs (i + 1)) fuel r.file with
        | none => none
        | some rs => some (r :: rs)

/-- Calls `ReadDir(count)` until a call returns an error: what every call
returned, in order, the call with the error last.  `none` when `fuel` calls
did not reach an error, or a call panicked. -/
def readDirLoop (count : Int) : Nat → openDir → Option (List ReadDirResult)
  | 0, _ => none
  | fuel + 1, d =>
    match d.ReadDir count with
    | none => none
    | some r =>
      match r.err with
      | some _ => some [r]
      | none =>
        match readDirLoop count fuel r.dir with
        | none => none
        | some rs => some (r :: rs)

/-! ## File modes and metadata methods -/

/-- Modelled from the spec: the standard library type `fs.FileMode` (a `uint32`),
absent from the sources; the mode bits of an entry, as a natural number. -/
abbrev FileMode := Nat

/-- Modelled from the spec: the standard library constant `fs.ModeDir`, absent
from the sources; the bit that marks a directory in a mode (`d`, bit 31). -/
def ModeDir : FileMode := 2 ^ 31

/-- Modelled from the spec: the standard library constant `fs.ModeSymlink`,
absent from the sources (bit 27). -/
def ModeSymlink : FileMode := 2 ^ 27

/-- Modelled from the spec: the standard library constant `fs.ModeDevice`,
absent from the sources (bit 26). -/
def ModeDevice : FileMode := 2 ^ 26

/-- Modelled from the spec: the standard library constant `fs.ModeNamedPipe`,
absent from the sources (bit 25). -/
def ModeNamedPipe : FileMode := 2 ^ 25

/-- Modelled from the spec: the standard library constant `fs.ModeSocket`,
absent from the sources (bit 24). -/
def ModeSocket : FileMode := 2 ^ 24

/-- Modelled from the spec: the standard library constant `fs.ModeCharDevice`,
absent from the sources (bit 21). -/
def ModeCharDevice : FileMode := 2 ^ 21

/-- Modelled from the spec: the standard library constant `fs.ModeIrregular`,
absent from the sources (bit 19). -/
def ModeIrregular : FileMode := 2 ^ 19

/-- Modelled from the spec: the standard library constant `fs.ModeType`, absent
from the sources; the mask of the file-type bits of a mode. -/
def ModeType : FileMode :=
  ModeDir ||| ModeSymlink ||| ModeNamedPipe ||| ModeSocket ||| ModeDevice ||| ModeCharDevice |||
    ModeIrregular

/-- Modelled from the spec: the standard library method `fs.FileMode.Type`,
absent from the sources; the mode restricted to its file-type bits. -/
def FileMode.Type (m : FileMode) : FileMode := m &&& ModeType

/-- Modelled from the spec: the standard library method `fs.FileMode.IsDir`,
absent from the sources; whether the directory bit of the mode is set. -/
def FileMode.IsDir (m : FileMode) : Bool := m &&& ModeDir != 0

/-- Modelled from the spec: the standard library type `time.Time`, absent from
the sources; an instant by its `wall` and `ext` fields. -/
structure Time where
  wall : Nat
  ext : Int
  deriving DecidableEq

/-- The zero value `time.Time{}`. -/
def Time.zero : Time := ⟨0, 0⟩

/-- Method `repoContent.Mode`. -/
def repoContent.Mode (c : repoContent) : FileMode :=
  if c.c.type = "dir" then ModeDir ||| 0o555
  else if c.c.type = "file" then 0o444
  else 0

/-- Method `repoContent.Type`. -/
def repoContent.Type (c : repoContent) : FileMode := FileMode.Type c.Mode

/-- Method `repoContent.Info`. -/
def repoContent.Info (c : repoContent) : repoContent × Option Error := (c, none)

/-- Method `repoContent.ModTime`. -/
def repoContent.ModTime (_c : repoContent) : Time := Time.zero

/-- Method `repoContent.Sys`. -/
def repoContent.Sys (c : repoContent) : RepositoryContent := c.c

/-- Method `repoContent.IsDir`. -/
def repoContent.IsDir (c : repoContent) : Bool := c.c.type == "dir"

/-- Method `dir.Name`. -/
def dir.Name (d : dir) : String := d.name

/-- Method `dir.Size`. -/
def dir.Size (_d : dir) : Int := 0

/-- Method `dir.Mode`. -/
def dir.Mode (_d : dir) : FileMode := ModeDir ||| 0o555

/-- Method `dir.ModTime`. -/
def dir.ModTime (_d : dir) : Time := Time.zero

/-- Method `dir.IsDir`. -/
def dir.IsDir (_d : dir) : Bool := true

/-- Method `dir.Sys`. -/
def dir.Sys (d : dir) : String := d.name

/-! ## The other methods of a directory handle -/

/-- What `openDir.Read` returns: `n`, the error, the buffer afterwards and the
handle afterwards. -/
structure DirReadResult where
  n : Int
  err : Option Error
  buf : List Byte
  dir : openDir

/-- Method `openDir.Stat`. -/
def openDir.Stat (d : openDir) : dir × Option Error := (d.d, none)

/-- Method `openDir.Close`. -/
def openDir.Close (_d : openDir) : Option Error := none

/-- Method `openDir.Read`. -/
def openDir.Read (d : openDir) (b : List Byte) : DirReadResult :=
  ⟨0, some (Error.pathError "read" d.d.Name (Errno.other "is a directory")), b, d⟩

/-! ## Path validity and the directory listing of the facade -/

/-- Modelled from the spec: the loop of the standard library function
`fs.ValidPath`, absent from the sources.  Each round takes the element up to
the next slash, rejects an empty, `.` or `..` element, accepts at the end of
the name and otherwise goes on after the slash.  The fuel bounds the rounds. -/
def validPathLoop : Nat → List Char → Bool
  | 0, _ => false
  | fuel + 1, name =>
    let elem := name.takeWhile (fun c => c != '/')
    if elem = [] ∨ elem = ['.'] ∨ elem = ['.', '.'] then false
    else if elem.length = name.length then true
    else validPathLoop fuel (name.drop (elem.length + 1))

/-- Modelled from the spec: the standard library function `fs.ValidPath`, absent
from the sources: the path-validity rules of the file-system interface.  A
valid name is non-empty, has no leading or trailing slash and no empty, `.` or
`..` element; the root name `.` is valid as a special case. -/
def ValidPath (name : String) : Bool :=
  if name = "." then true else validPathLoop (name.length + 1) name.toList

/-- Path elements joined with slashes. -/
def joinElems : List (List Char) → List Char
  | [] => []
  | [e] => e
  | e :: es => e ++ '/' :: joinElems es

/-- Whether a path element is one that `fs.ValidPath` rejects. -/
def badElem (e : List Char) : Bool := e = [] ∨ e = ['.'] ∨ e = ['.', '.']

/-- Method `FS.ReadDir`. -/
def FS.ReadDir (validPath : String → Bool) (f : FS) (name : String) :
    Option (List repoContent) × Option Error :=
  let r := f.getContents validPath name
  match r.2.2 with
  | some err => (none, some err)
  | none =>
    match r.2.1 with
    | none => (none, some (Error.pathError "open" name Errno.notExist))
    | some dc => (some (dc.map (fun c => ⟨c⟩)), none)

/-! ## Sequences of calls on a directory handle -/

/-- One call on a directory handle. -/
inductive DirOp where
  | readDir (count : Int)
  | read (b : List Byte)
  | stat
  | close

/-- What one call on a directory handle returned to its caller. -/
inductive DirRet where
  | readDir (list : List repoContent) (err : Option Error)
  | read (n : Int) (err : Option Error) (buf : List Byte)
  | stat (info : dir) (err : Option Error)
  | close (err : Option Error)

/-- One call: what it returns and the handle afterwards (`none`: a panic). -/
def stepDir (d : openDir) : DirOp → Option (DirRet × openDir)
  | DirOp.readDir count => (d.ReadDir count).map (fun r => (DirRet.readDir r.list r.err, r.dir))
  | DirOp.read b => let r := d.Read b; some (DirRet.read r.n r.err r.buf, r.dir)
  | DirOp.stat => some (DirRet.stat d.Stat.1 d.Stat.2, d)
  | DirOp.close => some (DirRet.close d.Close, d)

/-- A sequence of calls on one handle: for each call, in order, what it
returned and the handle after it (`none`: one of the calls panicked). -/
def runDir (d : openDir) : List DirOp → Option (List (DirRet × openDir))
  | [] => some []
  | op :: ops =>
    match stepDir d op with
    | none => none
    | some (ret, d1) =>
      match runDir d1 ops with
      | none => none
      | some tr => some ((ret, d1) :: tr)

/-! ## Sample values -/

/-- A file descriptor named `name` whose content is `data`. -/
def sampleEntry (name : String) (data : List Byte) : repoContent :=
  ⟨⟨name, (data.length : Int), "file", Except.ok data⟩⟩

/-- A freshly opened directory `"rate"` with three entries. -/
def sampleDir : openDir :=
  ⟨⟨"rate"⟩, [sampleEntry "a" [1], sampleEntry "b" [2, 3], sampleEntry "c" []], 0⟩

/-- A freshly opened file of three bytes. -/
def sampleFile : openFile := ⟨sampleEntry "go.mod" [7, 8, 9], [7, 8, 9], 0⟩

/-- A facade whose client answers `"go.mod"` with the descriptor of
`sampleFile` and every other path with an error. -/
def sampleFS : FS :=
  ⟨"golang", "time", fun _ _ name =>
    if name = "go.mod" then (some (sampleEntry "go.mod" [7, 8, 9]).c, none, none)
    else (none, none, some (Error.upstream "404 Not Found"))⟩

/-- A directory descriptor named `name`. -/
def sampleSubdir (name : String) : RepositoryContent := ⟨name, 0, "dir", Except.ok []⟩

/-- A facade whose client answers every path, the empty one included, with the
same listing of two entries. -/
def sampleRootFS : FS :=
  ⟨"golang", "time", fun _ _ _ =>
    (none, some [(sampleEntry "go.mod" [7, 8, 9]).c, sampleSubdir "rate"], none)⟩

/-- A facade whose client answers `"broken"` with a descriptor whose content
does not decode and every other path with an error. -/
def sampleBrokenFS : FS :=
  ⟨"golang", "time", fun _ _ name =>
    if name = "broken" then
      (some ⟨"broken", 4, "file", Except.error (Error.upstream "unsupported content encoding")⟩,
        none, none)
    else (none, none, some (Error.upstream "404 Not Found"))⟩

/-! ## Arithmetic helpers -/

theorem wrap64_of_isInt64 (x : Int) (h : isInt64 x) : wrap64 x = x := by
  unfold isInt64 minInt64 maxInt64 at h
  unfold wrap64
  omega

theorem wrap64_neg_of_overflow (x : Int) (h1 : maxInt64 < x) (h2 : x ≤ 2 * maxInt64) :
    wrap64 x < 0 := by
  unfold maxInt64 at h1 h2
  unfold wrap64
  omega

/-! ## Seek -/

theorem seekTarget_eq_seekPosition (f : openFile) (o w : Int)
    (hw : w = 0 ∨ w = 1 ∨ w = 2) (hp : isInt64 (seekPosition f o w)) :
    seekTarget f o w = seekPosition f o w := by
  unfold seekTarget
  unfold seekPosition at hp ⊢
  rcases hw with h | h | h
  · simp [h]
  · subst h
    simp only [show ¬ ((1 : Int) = 0) by decide, if_false, if_true] at hp ⊢
    rw [Int.add_comm, wrap64_of_isInt64 _ hp]
  · subst h
    simp only [show ¬ ((2 : Int) = 0) by decide, show ¬ ((2 : Int) = 1) by decide,
      if_false, if_true] at hp ⊢
    rw [Int.add_comm, wrap64_of_isInt64 _ hp]

/-- C1: whatever the current offset, a seek with whence 0, 1 or 2 whose
position `p`, computed over the integers, satisfies `0 ≤ p ≤ len(data)`
returns `(p, nil)`, sets the offset to `p` and changes nothing else; so
`Seek(0, 2)` returns `len(data)`. -/
theorem C1_seek_success (f : openFile) (o w : Int)
    (hL : (f.data.length : Int) ≤ maxInt64)
    (hw : w = 0 ∨ w = 1 ∨ w = 2)
    (hp : 0 ≤ seekPosition f o w ∧ seekPosition f o w ≤ (f.data.length : Int)) :
    f.Seek o w = ⟨seekPosition f o w, none, { f with offset := seekPosition f o w }⟩ ∧
    (f.Seek o w).file.offset = seekPosition f o w ∧
    f.Seek 0 2 = ⟨(f.data.length : Int), none, { f with offset := (f.data.length : Int) }⟩ := by
  have key : ∀ o w, (w = 0 ∨ w = 1 ∨ w = 2) →
      0 ≤ seekPosition f o w → seekPosition f o w ≤ (f.data.length : Int) →
      f.Seek o w = ⟨seekPosition f o w, none, { f with offset := seekPosition f o w }⟩ := by
    intro o w hw h0 h1
    have hin : isInt64 (seekPosition f o w) := by
      unfold isInt64 minInt64
      unfold maxInt64 at hL ⊢
      constructor <;> omega
    have ht := seekTarget_eq_seekPosition f o w hw hin
    unfold openFile.Seek
    simp only [ht]
    rw [if_neg (by omega)]
  refine ⟨key o w hw hp.1 hp.2, ?_, ?_⟩
  · rw [key o w hw hp.1 hp.2]
  · have h2 := key 0 2 (Or.inr (Or.inr rfl))
    have hs : seekPosition f 0 2 = (f.data.length : Int) := by
      unfold seekPosition; simp
    rw [hs] at h2
    exact h2 (by omega) (by omega)

theorem C1_seek_success_witness :
    (openFile.Seek ⟨⟨⟨"go.mod", 3, "file", Except.ok [1, 2, 3]⟩⟩, [1, 2, 3], 1⟩ (-1) 2).pos = 2 ∧
    (openFile.Seek ⟨⟨⟨"go.mod", 3, "file", Except.ok [1, 2, 3]⟩⟩, [1, 2, 3], 1⟩ (-1) 2).file.offset
      = 2 := by
  have h := C1_seek_success ⟨⟨⟨"go.mod", 3, "file", Except.ok [1, 2, 3]⟩⟩, [1, 2, 3], 1⟩ (-1) 2
    (by decide) (by decide) (by decide)
  constructor
  · rw [h.1]; decide
  · rw [h.2.1]; decide

/-- C2: with the offset `c` in `[0, len(data)]`, a seek with whence 0, 1 or 2
and an `int64` argument whose position, computed over the integers, is outside
`[0, len(data)]` returns `(0, PathError("seek", name, ErrInvalid))` and leaves
the handle, its offset included, as it was; this covers the positions whose
64-bit sum wraps around. -/
theorem C2_seek_failure (f : openFile) (o w : Int)
    (hL : (f.data.length : Int) ≤ maxInt64)
    (hc : 0 ≤ f.offset ∧ f.offset ≤ (f.data.length : Int))
    (hw : w = 0 ∨ w = 1 ∨ w = 2)
    (ho : isInt64 o)
    (hp : seekPosition f o w < 0 ∨ (f.data.length : Int) < seekPosition f o w) :
    f.Seek o w = ⟨0, some (Error.pathError "seek" f.c.Name Errno.invalid), f⟩ ∧
    (f.Seek o w).file.offset = f.offset := by
  have hbad : seekTarget f o w < 0 ∨ seekTarget f o w > (f.data.length : Int) := by
    unfold isInt64 minInt64 maxInt64 at ho
    unfold maxInt64 at hL
    unfold seekPosition at hp
    unfold seekTarget wrap64
    rcases hw with h | h | h
    · subst h; simpa using hp
    · subst h
      simp only [show ¬ ((1 : Int) = 0) by decide, if_false, if_true] at hp ⊢
      omega
    · subst h
      simp only [show ¬ ((2 : Int) = 0) by decide, show ¬ ((2 : Int) = 1) by decide,
        if_false, if_true] at hp ⊢
      omega
  have hs : f.Seek o w = ⟨0, some (Error.pathError "seek" f.c.Name Errno.invalid), f⟩ := by
    unfold openFile.Seek
    simp only []
    rw [if_pos hbad]
  exact ⟨hs, by rw [hs]⟩

theorem C2_seek_failure_witness :
    (openFile.Seek ⟨⟨⟨"go.mod", 3, "file", Except.ok [1, 2, 3]⟩⟩, [1, 2, 3], 2⟩
      9223372036854775807 1).file.offset = 2 :=
  (C2_seek_failure ⟨⟨⟨"go.mod", 3, "file", Except.ok [1, 2, 3]⟩⟩, [1, 2, 3], 2⟩
    9223372036854775807 1 (by decide) (by decide) (by decide) (by decide) (by decide)).2

/-! ## Read and ReadAt -/

theorem copy_fst (dst src : List Byte) : (copy dst src).1 = min dst.length src.length := rfl

theorem copy_length (dst src : List Byte) : (copy dst src).2.length = dst.length := by
  simp only [copy, List.length_append, List.length_take, List.length_drop]
  omega

theorem copy_take (dst src : List Byte) :
    (copy dst src).2.take (copy dst src).1 = src.take (copy dst src).1 := by
  simp only [copy]
  rw [List.take_append_of_le_length (by simp)]
  simp

theorem copy_drop (dst src : List Byte) :
    (copy dst src).2.drop (copy dst src).1 = dst.drop (copy dst src).1 := by
  simp only [copy]
  rw [List.drop_append_of_le_length (by simp)]
  simp

theorem sliceFrom_of_bounds (s : List Byte) (i : Int) (h0 : 0 ≤ i) (h1 : i ≤ (s.length : Int)) :
    sliceFrom s i = some (s.drop i.toNat) := by
  unfold sliceFrom
  rw [if_pos ⟨h0, h1⟩]

theorem read_at_end (f : openFile) (b : List Byte) (h : (f.data.length : Int) ≤ f.offset) :
    f.Read b = some ⟨0, some Error.eof, b, f⟩ := by
  unfold openFile.Read
  rw [if_pos h]

theorem read_before_end (f : openFile) (b : List Byte)
    (hL : (f.data.length : Int) ≤ maxInt64)
    (h0 : 0 ≤ f.offset) (h1 : f.offset < (f.data.length : Int)) :
    f.Read b = some ⟨((copy b (f.data.drop f.offset.toNat)).1 : Int), none,
      (copy b (f.data.drop f.offset.toNat)).2,
      { f with offset := f.offset + ((copy b (f.data.drop f.offset.toNat)).1 : Int) }⟩ := by
  unfold openFile.Read
  rw [if_neg (by omega), if_neg (by omega), sliceFrom_of_bounds _ _ h0 (by omega)]
  simp only []
  have hn : (copy b (f.data.drop f.offset.toNat)).1 ≤ f.data.length - f.offset.toNat := by
    rw [copy_fst, List.length_drop]; exact Nat.min_le_right _ _
  rw [wrap64_of_isInt64]
  unfold isInt64 minInt64
  unfold maxInt64 at hL ⊢
  constructor <;> omega

/-- C3: with the offset `c` in `[0, L]`, `L = len(data)`: at `c = L` a read
returns `(0, EOF)` and changes neither buffer nor handle; at `c < L` it returns
`(n, nil)` with `n = min(len(b), L - c)`, the buffer keeps its length, its
first `n` bytes are `data[c .. c+n)`, the rest is untouched, the offset
becomes `c + n` and the data stay as they were.  So a read into a `k`-byte
buffer, `1 ≤ k`, from offset `L - k` returns `(k, nil)` and the read after it
returns `(0, EOF)`. -/
theorem C3_read_postcondition (f : openFile) (b : List Byte)
    (hL : (f.data.length : Int) ≤ maxInt64)
    (hc : 0 ≤ f.offset ∧ f.offset ≤ (f.data.length : Int)) :
    (f.offset = (f.data.length : Int) → f.Read b = some ⟨0, some Error.eof, b, f⟩) ∧
    (f.offset < (f.data.length : Int) → ∃ r, f.Read b = some r ∧ r.err = none ∧
      r.n = min (b.length : Int) ((f.data.length : Int) - f.offset) ∧
      r.buf.length = b.length ∧
      r.buf.take r.n.toNat = (f.data.drop f.offset.toNat).take r.n.toNat ∧
      r.buf.drop r.n.toNat = b.drop r.n.toNat ∧
      r.file.offset = f.offset + r.n ∧ r.file.data = f.data ∧ r.file.c = f.c) ∧
    (∀ k : Nat, 1 ≤ k → b.length = k → f.offset = (f.data.length : Int) - (k : Int) →
      ∃ r, f.Read b = some r ∧ r.n = (k : Int) ∧ r.err = none ∧
        r.buf = (f.data.drop f.offset.toNat).take k ∧
        ∀ b2, r.file.Read b2 = some ⟨0, some Error.eof, b2, r.file⟩) := by
  refine ⟨fun h => read_at_end f b (by omega), fun h => ?_, fun k hk hb hoff => ?_⟩
  · refine ⟨_, read_before_end f b hL hc.1 h, rfl, ?_, ?_, ?_, ?_, rfl, rfl, rfl⟩
    · simp only [copy_fst, List.length_drop]
      omega
    · exact copy_length _ _
    · simpa using copy_take b (f.data.drop f.offset.toNat)
    · simpa using copy_drop b (f.data.drop f.offset.toNat)
  · have hlt : f.offset < (f.data.length : Int) := by omega
    have hn : (copy b (f.data.drop f.offset.toNat)).1 = k := by
      rw [copy_fst, List.length_drop]; omega
    refine ⟨_, read_before_end f b hL hc.1 hlt, by simp only [hn], rfl, ?_, fun b2 => ?_⟩
    · have ht := copy_take b (f.data.drop f.offset.toNat)
      have hlen := copy_length b (f.data.drop f.offset.toNat)
      rw [hn] at ht
      rw [← ht, List.take_of_length_le (by omega)]
    · apply read_at_end
      simp only [hn]
      omega

theorem C3_read_postcondition_witness :
    ∃ r, openFile.Read ⟨⟨⟨"go.mod", 3, "file", Except.ok [7, 8, 9]⟩⟩, [7, 8, 9], 1⟩ [0, 0] = some r ∧
      r.n = 2 ∧ r.err = none ∧ r.buf = [8, 9] ∧
      ∀ b2, r.file.Read b2 = some ⟨0, some Error.eof, b2, r.file⟩ :=
  (C3_read_postcondition ⟨⟨⟨"go.mod", 3, "file", Except.ok [7, 8, 9]⟩⟩, [7, 8, 9], 1⟩ [0, 0]
    (by decide) (by decide)).2.2 2 (by decide) rfl rfl

theorem readAt_out_of_range (f : openFile) (b : List Byte) (o : Int)
    (h : o < 0 ∨ (f.data.length : Int) < o) :
    f.ReadAt b o = some ⟨0, some (Error.pathError "read" f.c.Name Errno.invalid), b, f⟩ := by
  unfold openFile.ReadAt
  rw [if_pos (by omega)]

theorem readAt_in_range (f : openFile) (b : List Byte) (o : Int)
    (h0 : 0 ≤ o) (h1 : o ≤ (f.data.length : Int)) :
    f.ReadAt b o = some ⟨((copy b (f.data.drop o.toNat)).1 : Int),
      if (copy b (f.data.drop o.toNat)).1 < b.length then some Error.eof else none,
      (copy b (f.data.drop o.toNat)).2, f⟩ := by
  unfold openFile.ReadAt
  rw [if_neg (by omega), sliceFrom_of_bounds _ _ h0 h1]
  simp only []
  split <;> rfl

theorem readAt_file (f : openFile) (b : List Byte) (o : Int) :
    ∃ r, f.ReadAt b o = some r ∧ r.file = f := by
  by_cases h : o < 0 ∨ (f.data.length : Int) < o
  · exact ⟨_, readAt_out_of_range f b o h, rfl⟩
  · exact ⟨_, readAt_in_range f b o (by omega) (by omega), rfl⟩

/-- C4: for every handle, buffer `b` and offset `o`, with `L = len(data)`: if
`o < 0` or `o > L`, `ReadAt` returns `(0, PathError("read", name, ErrInvalid))`
and leaves `b` as it was; otherwise it returns `n = min(len(b), L - o)`, the
buffer keeps its length, its first `n` bytes are `data[o .. o+n)`, the rest is
untouched, and the error is `EOF` exactly when `n < len(b)` and `nil`
otherwise; at `o = L` with an empty buffer it returns `(0, nil)`. -/
theorem C4_readAt_postcondition (f : openFile) (b : List Byte) (o : Int) :
    ((o < 0 ∨ (f.data.length : Int) < o) →
      f.ReadAt b o = some ⟨0, some (Error.pathError "read" f.c.Name Errno.invalid), b, f⟩) ∧
    ((0 ≤ o ∧ o ≤ (f.data.length : Int)) → ∃ r, f.ReadAt b o = some r ∧
      r.n = min (b.length : Int) ((f.data.length : Int) - o) ∧
      r.buf.length = b.length ∧
      r.buf.take r.n.toNat = (f.data.drop o.toNat).take r.n.toNat ∧
      r.buf.drop r.n.toNat = b.drop r.n.toNat ∧
      (r.err = some Error.eof ↔ r.n < (b.length : Int)) ∧
      (r.err = none ↔ ¬ r.n < (b.length : Int))) ∧
    (o = (f.data.length : Int) → f.ReadAt [] o = some ⟨0, none, [], f⟩) := by
  refine ⟨readAt_out_of_range f b o, fun h => ?_, fun h => ?_⟩
  · refine ⟨_, readAt_in_range f b o h.1 h.2, ?_, ?_, ?_, ?_, ?_, ?_⟩
    · simp only [copy_fst, List.length_drop]
      omega
    · exact copy_length _ _
    · simpa using copy_take b (f.data.drop o.toNat)
    · simpa using copy_drop b (f.data.drop o.toNat)
    · by_cases hlt : (copy b (f.data.drop o.toNat)).1 < b.length
      · simp only [if_pos hlt, true_iff]; omega
      · simp only [if_neg hlt, false_iff]
        constructor
        · intro h; cases h
        · intro h; omega
    · by_cases hlt : (copy b (f.data.drop o.toNat)).1 < b.length
      · simp only [if_pos hlt]
        constructor
        · intro h; cases h
        · intro h; omega
      · simp only [if_neg hlt, true_iff]; omega
  · rw [readAt_in_range f [] o (by omega) (by omega)]
    simp [copy]

theorem C4_readAt_postcondition_witness :
    openFile.ReadAt ⟨⟨⟨"go.mod", 3, "file", Except.ok [7, 8, 9]⟩⟩, [7, 8, 9], 0⟩ [0, 0] 4 =
      some ⟨0, some (Error.pathError "read" "go.mod" Errno.invalid), [0, 0],
        ⟨⟨⟨"go.mod", 3, "file", Except.ok [7, 8, 9]⟩⟩, [7, 8, 9], 0⟩⟩ :=
  (C4_readAt_postcondition ⟨⟨⟨"go.mod", 3, "file", Except.ok [7, 8, 9]⟩⟩, [7, 8, 9], 0⟩ [0, 0] 4).1
    (by decide)

/-! ## ReadAt and the sequential offset -/

theorem stepFile_readAt (f : openFile) (b : List Byte) (o : Int) :
    ∃ ret, stepFile f (FileOp.readAt b o) = some (ret, f) ∧ ret.isReadAt = true := by
  obtain ⟨r, hr, hf⟩ := readAt_file f b o
  refine ⟨FileRet.readAt r.n r.err r.buf, ?_, rfl⟩
  simp only [stepFile, hr, Option.map_some', hf]

theorem stepFile_not_readAt (f : openFile) (op : FileOp) (h : op.isReadAt = false)
    (ret : FileRet) (f1 : openFile) (hs : stepFile f op = some (ret, f1)) :
    ret.isReadAt = false := by
  cases op with
  | read b =>
    simp only [stepFile, Option.map_eq_some'] at hs
    obtain ⟨r, _, hr⟩ := hs
    cases hr; rfl
  | seek o w => simp only [stepFile, Option.some.injEq] at hs; cases hs; rfl
  | readAt b o => simp [FileOp.isReadAt] at h
  | stat => simp only [stepFile, Option.some.injEq] at hs; cases hs; rfl
  | close => simp only [stepFile, Option.some.injEq] at hs; cases hs; rfl

theorem runFile_drop_readAt (ops : List FileOp) : ∀ f : openFile,
    (runFile f ops).map (fun p => (p.1.filter (fun r => !r.isReadAt), p.2)) =
      runFile f (ops.filter (fun op => !op.isReadAt)) := by
  induction ops with
  | nil => intro f; rfl
  | cons op ops ih =>
    intro f
    cases hop : op.isReadAt with
    | true =>
      cases op with
      | readAt b o =>
        obtain ⟨ret, hs, hret⟩ := stepFile_readAt f b o
        rw [List.filter_cons_of_neg (by simp [FileOp.isReadAt]), ← ih f]
        simp only [runFile, hs]
        cases runFile f ops with
        | none => rfl
        | some p => simp [hret]
      | read b => simp [FileOp.isReadAt] at hop
      | seek o w => simp [FileOp.isReadAt] at hop
      | stat => simp [FileOp.isReadAt] at hop
      | close => simp [FileOp.isReadAt] at hop
    | false =>
      rw [List.filter_cons_of_pos (by simp [hop])]
      simp only [runFile]
      cases hs : stepFile f op with
      | none => rfl
      | some q =>
        obtain ⟨ret, f1⟩ := q
        have hret := stepFile_not_readAt f op hop ret f1 hs
        simp only []
        rw [← ih f1]
        cases runFile f1 ops with
        | none => rfl
        | some p => simp [hret]

/-- C5: `ReadAt` never panics and returns the handle exactly as it was
(offset, data and metadata), for every state, buffer and offset; hence
removing the `ReadAt` calls from any sequence of calls on a handle removes
their returned values and changes neither what the other calls return nor the
handle at the end. -/
theorem C5_readAt_cursor_independent :
    (∀ (f : openFile) (b : List Byte) (o : Int), ∃ r, f.ReadAt b o = some r ∧
      r.file = f ∧ r.file.offset = f.offset ∧ r.file.data = f.data) ∧
    (∀ (f : openFile) (ops : List FileOp),
      (runFile f ops).map (fun p => (p.1.filter (fun r => !r.isReadAt), p.2)) =
        runFile f (ops.filter (fun op => !op.isReadAt))) := by
  refine ⟨fun f b o => ?_, fun f ops => runFile_drop_readAt ops f⟩
  obtain ⟨r, hr, hf⟩ := readAt_file f b o
  exact ⟨r, hr, hf, by rw [hf], by rw [hf]⟩

/-! ## ReadDir -/

theorem mapM_option_congr {α β : Type} (f g : α → Option β) (l : List α)
    (h : ∀ x ∈ l, f x = g x) : l.mapM f = l.mapM g := by
  induction l with
  | nil => rfl
  | cons a l ih =>
    rw [List.mapM_cons, List.mapM_cons, h a (List.mem_cons_self a l),
      ih (fun x hx => h x (List.mem_cons_of_mem a hx))]

theorem mapM_range_lookup {α : Type} (xs : List α) (k : Nat) : ∀ n : Nat,
    k + n ≤ xs.length →
    (List.range n).mapM (fun i => xs[k + i]?) = some ((xs.drop k).take n) := by
  intro n
  induction n with
  | zero => intro _; rfl
  | succ n ih =>
    intro h
    have hlt : k + n < xs.length := by omega
    rw [List.range_succ, List.mapM_append, ih (by omega), List.take_succ, List.mapM_cons,
      List.mapM_nil, List.getElem?_drop, List.getElem?_eq_getElem hlt]
    rfl

theorem index_wrap (xs : List repoContent) (c : Int) (i : Nat)
    (hL : (xs.length : Int) ≤ maxInt64) (h0 : 0 ≤ c) (h1 : c + (i : Int) < (xs.length : Int)) :
    index xs (wrap64 (c + (i : Int))) = xs[c.toNat + i]? := by
  rw [wrap64_of_isInt64]
  · unfold index
    rw [if_pos (by omega)]
    congr 1
    omega
  · unfold isInt64 minInt64
    unfold maxInt64 at hL ⊢
    constructor <;> omega

theorem readDir_exhausted (d : openDir) (count : Int) (h : d.offset = (d.files.length : Int)) :
    d.ReadDir count = some ⟨[], if count ≤ 0 then none else some Error.eof, d⟩ := by
  have hz : wrap64 ((d.files.length : Int) - d.offset) = 0 := by
    rw [h, Int.sub_self]; decide
  unfold openDir.ReadDir
  simp only [hz]
  have hn : (if count > 0 ∧ (0 : Int) > count then count else 0) = 0 := by
    rw [if_neg (by omega)]
  rw [hn, if_pos rfl]
  split <;> rfl

theorem readDir_chunk (d : openDir) (count : Int)
    (hL : (d.files.length : Int) ≤ maxInt64)
    (h0 : 0 ≤ d.offset) (h1 : d.offset < (d.files.length : Int)) (n : Int)
    (hn : n = if 0 < count ∧ count < (d.files.length : Int) - d.offset then count
      else (d.files.length : Int) - d.offset) :
    d.ReadDir count = some ⟨(d.files.drop d.offset.toNat).take n.toNat, none,
      { d with offset := d.offset + n }⟩ := by
  have hw : wrap64 ((d.files.length : Int) - d.offset) = (d.files.length : Int) - d.offset := by
    apply wrap64_of_isInt64
    unfold isInt64 minInt64
    unfold maxInt64 at hL ⊢
    constructor <;> omega
  have hn2 : (if count > 0 ∧ (d.files.length : Int) - d.offset > count then count
      else (d.files.length : Int) - d.offset) = n := by
    rw [hn]
  have hpos : 0 < n ∧ d.offset + n ≤ (d.files.length : Int) := by
    rw [hn]; split <;> omega
  have hw2 : wrap64 (d.offset + n) = d.offset + n := by
    apply wrap64_of_isInt64
    unfold isInt64 minInt64
    unfold maxInt64 at hL ⊢
    constructor <;> omega
  unfold openDir.ReadDir
  simp only [hw, hn2]
  rw [if_neg (by omega), if_neg (by omega), hw2]
  rw [mapM_option_congr _ (fun i => d.files[d.offset.toNat + i]?) _
    (fun i hi => index_wrap d.files d.offset i hL h0
      (by have := List.mem_range.mp hi; omega))]
  rw [mapM_range_lookup d.files d.offset.toNat n.toNat (by omega)]

/-- C6: with the cursor `c` in `[0, N]`, `N = len(files)`, and `count > 0`:
at `c < N`, `ReadDir(count)` returns with a nil error exactly
`n = min(count, N - c)` entries, `files[c .. c+n)` in order, and the cursor
becomes `c + n` with the entries unchanged; at `c = N` it returns an empty
result with `EOF` and the handle as it was.  In neither case is the result
empty with a nil error. -/
theorem C6_readDir_positive (d : openDir) (count : Int)
    (hL : (d.files.length : Int) ≤ maxInt64)
    (hc : 0 ≤ d.offset ∧ d.offset ≤ (d.files.length : Int))
    (hcount : 0 < count) :
    (d.offset < (d.files.length : Int) → ∃ r, d.ReadDir count = some r ∧ r.err = none ∧
      (r.list.length : Int) = min count ((d.files.length : Int) - d.offset) ∧
      r.list = (d.files.drop d.offset.toNat).take r.list.length ∧
      r.dir.offset = d.offset + (r.list.length : Int) ∧
      r.dir.files = d.files ∧ r.dir.d = d.d) ∧
    (d.offset = (d.files.length : Int) → d.ReadDir count = some ⟨[], some Error.eof, d⟩) ∧
    (∃ r, d.ReadDir count = some r ∧ ¬ (r.list = [] ∧ r.err = none)) := by
  have hlt : d.offset < (d.files.length : Int) → ∃ r, d.ReadDir count = some r ∧ r.err = none ∧
      (r.list.length : Int) = min count ((d.files.length : Int) - d.offset) ∧
      r.list = (d.files.drop d.offset.toNat).take r.list.length ∧
      r.dir.offset = d.offset + (r.list.length : Int) ∧
      r.dir.files = d.files ∧ r.dir.d = d.d := by
    intro h
    have hr := readDir_chunk d count hL hc.1 h _ rfl
    have hn : (if 0 < count ∧ count < (d.files.length : Int) - d.offset then count
        else (d.files.length : Int) - d.offset) = min count ((d.files.length : Int) - d.offset) := by
      split <;> omega
    rw [hn] at hr
    have hlen : ((d.files.drop d.offset.toNat).take
        (min count ((d.files.length : Int) - d.offset)).toNat).length =
        (min count ((d.files.length : Int) - d.offset)).toNat := by
      rw [List.length_take, List.length_drop]; omega
    refine ⟨_, hr, rfl, ?_, ?_, ?_, rfl, rfl⟩
    · simp only [hlen]; omega
    · simp only [hlen]
    · simp only [hlen]
      congr 1
      omega
  have heq : d.offset = (d.files.length : Int) →
      d.ReadDir count = some ⟨[], some Error.eof, d⟩ := by
    intro h
    rw [readDir_exhausted d count h, if_neg (by omega)]
  refine ⟨hlt, heq, ?_⟩
  by_cases h : d.offset < (d.files.length : Int)
  · obtain ⟨r, hr, _, hlen, _⟩ := hlt h
    refine ⟨r, hr, fun hne => ?_⟩
    rw [hne.1] at hlen
    simp only [List.length_nil] at hlen
    omega
  · refine ⟨_, heq (by omega), fun hne => ?_⟩
    exact absurd hne.2 (by simp)

theorem C6_readDir_positive_witness :
    ∃ r, sampleDir.ReadDir 2 = some r ∧ ¬ (r.list = [] ∧ r.err = none) :=
  (C6_readDir_positive sampleDir 2 (by decide) (by decide) (by decide)).2.2

/-- C7: with the cursor `c` in `[0, N]`, `N = len(files)`, and `count ≤ 0`,
`ReadDir(count)` returns all the remaining entries `files[c .. N)` in order
with a nil error, the cursor becomes `N` and the entries stay as they were;
at `c = N` the result is empty, the error nil and the handle unchanged. -/
theorem C7_readDir_nonpositive (d : openDir) (count : Int)
    (hL : (d.files.length : Int) ≤ maxInt64)
    (hc : 0 ≤ d.offset ∧ d.offset ≤ (d.files.length : Int))
    (hcount : count ≤ 0) :
    (∃ r, d.ReadDir count = some r ∧ r.err = none ∧
      r.list = d.files.drop d.offset.toNat ∧
      r.dir.offset = (d.files.length : Int) ∧ r.dir.files = d.files ∧ r.dir.d = d.d) ∧
    (d.offset = (d.files.length : Int) → d.ReadDir count = some ⟨[], none, d⟩) := by
  have heq : d.offset = (d.files.length : Int) → d.ReadDir count = some ⟨[], none, d⟩ := by
    intro h
    rw [readDir_exhausted d count h, if_pos hcount]
  refine ⟨?_, heq⟩
  by_cases h : d.offset < (d.files.length : Int)
  · have hr := readDir_chunk d count hL hc.1 h ((d.files.length : Int) - d.offset)
      (by rw [if_neg (by omega)])
    refine ⟨_, hr, rfl, ?_, ?_, rfl, rfl⟩
    · apply List.take_of_length_le
      rw [List.length_drop]; omega
    · simp only []; omega
  · have h2 : d.offset = (d.files.length : Int) := by omega
    refine ⟨_, heq h2, rfl, ?_, h2, rfl, rfl⟩
    simp only []
    rw [List.drop_of_length_le (by omega)]

theorem C7_readDir_nonpositive_witness :
    ∃ r, sampleDir.ReadDir (-1) = some r ∧ r.err = none ∧
      r.list = sampleDir.files.drop sampleDir.offset.toNat ∧
      r.dir.offset = (sampleDir.files.length : Int) ∧ r.dir.files = sampleDir.files ∧
      r.dir.d = sampleDir.d :=
  (C7_readDir_nonpositive sampleDir (-1) (by decide) (by decide) (by decide)).1

/-! ## Directory pagination -/

theorem ceil_div_step (R k n : Nat) (hk : 1 ≤ k) (hR : 1 ≤ R) (hn : n = min k R) :
    (R - n + k - 1) / k + 1 = (R + k - 1) / k := by
  by_cases h : R ≤ k
  · have hn2 : n = R := by omega
    have h1 : (R - n + k - 1) / k = 0 := Nat.div_eq_of_lt (by omega)
    have h2 : (R + k - 1) / k = 1 := by
      have h3 : R + k - 1 = (R - 1) + k := by omega
      rw [h3, Nat.add_div_right _ (by omega), Nat.div_eq_of_lt (by omega)]
    rw [h1, h2]
  · have hn2 : n = k := by omega
    have h3 : R + k - 1 = (R - n + k - 1) + k := by omega
    rw [h3, Nat.add_div_right _ (by omega)]

theorem readDirLoop_drain (count : Int) (hcount : 0 < count) (files : List repoContent)
    (hL : (files.length : Int) ≤ maxInt64) : ∀ (fuel : Nat) (d : openDir),
    d.files = files → 0 ≤ d.offset → d.offset ≤ (files.length : Int) →
    (files.length : Int) - d.offset < (fuel : Int) →
    ∃ rs last, readDirLoop count fuel d = some (rs ++ [last]) ∧
      last.list = [] ∧ last.err = some Error.eof ∧
      (∀ r ∈ rs, r.err = none ∧ r.list ≠ [] ∧ (r.list.length : Int) ≤ count) ∧
      (rs.map (fun r => r.list)).flatten = files.drop d.offset.toNat ∧
      rs.length = (files.length - d.offset.toNat + count.toNat - 1) / count.toNat := by
  intro fuel
  induction fuel with
  | zero => intro d _ _ h1 hf; exact absurd hf (by omega)
  | succ fuel ih =>
    intro d hfiles h0 h1 hf
    by_cases hlt : d.offset < (d.files.length : Int)
    · have hr := readDir_chunk d count (by rw [hfiles]; exact hL) h0 hlt _ rfl
      generalize hn : (if 0 < count ∧ count < (d.files.length : Int) - d.offset then count
        else (d.files.length : Int) - d.offset) = n at hr
      rw [hfiles] at hr hn hlt
      have hnb : 0 < n ∧ n ≤ count ∧ d.offset + n ≤ (files.length : Int) ∧
          n.toNat = min count.toNat (files.length - d.offset.toNat) := by
        rw [← hn]; split <;> omega
      obtain ⟨rs, last, hloop, hl1, hl2, hall, hjoin, hlen⟩ :=
        ih { d with offset := d.offset + n } hfiles (by simp only []; omega)
          (by simp only []; omega) (by simp only []; omega)
      have hlist : ((files.drop d.offset.toNat).take n.toNat).length = n.toNat := by
        rw [List.length_take, List.length_drop]; omega
      refine ⟨⟨(files.drop d.offset.toNat).take n.toNat, none,
        { d with offset := d.offset + n }⟩ :: rs, last, ?_, hl1, hl2, ?_, ?_, ?_⟩
      · rw [hfiles] at hloop
        simp only [readDirLoop, hr, hloop, hfiles, List.cons_append]
      · intro r hmem
        rcases List.mem_cons.mp hmem with h | h
        · subst h
          refine ⟨rfl, ?_, ?_⟩
          · intro hnil
            have := congrArg List.length hnil
            simp only [hlist, List.length_nil] at this
            omega
          · simp only [hlist]; omega
        · exact hall r h
      · simp only [List.map_cons, List.flatten_cons, hjoin]
        have hd : (d.offset + n).toNat = d.offset.toNat + n.toNat := by omega
        rw [hd, ← List.drop_drop, List.take_append_drop]
      · simp only [List.length_cons, hlen]
        have hd : files.length - (d.offset + n).toNat =
            files.length - d.offset.toNat - n.toNat := by omega
        rw [hd]
        exact ceil_div_step (files.length - d.offset.toNat) count.toNat n.toNat
          (by omega) (by omega) hnb.2.2.2
    · have heq : d.offset = (d.files.length : Int) := by rw [hfiles] at hlt ⊢; omega
      have hr := readDir_exhausted d count heq
      rw [if_neg (by omega)] at hr
      refine ⟨[], ⟨[], some Error.eof, d⟩, ?_, rfl, rfl, ?_, ?_, ?_⟩
      · simp only [readDirLoop, hr, List.nil_append]
      · intro r hmem; cases hmem
      · rw [hfiles] at heq
        simp only [List.map_nil, List.flatten_nil]
        rw [List.drop_of_length_le (by omega)]
      · rw [hfiles] at heq
        simp only [List.length_nil]
        have hz : files.length - d.offset.toNat = 0 := by omega
        rw [hz, Nat.zero_add]
        exact (Nat.div_eq_of_lt (by omega)).symm

/-- C8: on a fresh handle (cursor 0) over `N` entries, repeating
`ReadDir(count)` with `count ≥ 1` until a call returns an error ends within
`N + 1` calls: the calls before the last return nil errors and non-empty
chunks of at most `count` entries whose concatenation is the entry sequence,
there are `⌈N / count⌉` of them (`N` when `count = 1`), and the last call
returns an empty result with `EOF`.  A single `ReadDir(k)` with `k ≤ 0` on the
fresh handle returns all `N` entries with a nil error. -/
theorem C8_directory_pagination (d : openDir) (count : Int) (fuel : Nat)
    (hL : (d.files.length : Int) ≤ maxInt64)
    (hfresh : d.offset = 0)
    (hcount : 1 ≤ count)
    (hfuel : d.files.length < fuel) :
    (∃ rs last, readDirLoop count fuel d = some (rs ++ [last]) ∧
      last.list = [] ∧ last.err = some Error.eof ∧
      (∀ r ∈ rs, r.err = none ∧ r.list ≠ [] ∧ (r.list.length : Int) ≤ count) ∧
      (rs.map (fun r => r.list)).flatten = d.files ∧
      rs.length = (d.files.length + count.toNat - 1) / count.toNat ∧
      (count = 1 → rs.length = d.files.length)) ∧
    (∀ k : Int, k ≤ 0 → ∃ r, d.ReadDir k = some r ∧ r.list = d.files ∧ r.err = none) := by
  constructor
  · obtain ⟨rs, last, hloop, hl1, hl2, hall, hjoin, hlen⟩ :=
      readDirLoop_drain count (by omega) d.files hL fuel d rfl (by omega) (by omega) (by omega)
    rw [hfresh] at hjoin hlen
    simp only [Int.toNat_zero, List.drop_zero, Nat.sub_zero] at hjoin hlen
    refine ⟨rs, last, hloop, hl1, hl2, hall, hjoin, hlen, fun h1 => ?_⟩
    rw [hlen, h1]
    simp
  · intro k hk
    by_cases hlt : d.offset < (d.files.length : Int)
    · have hr := readDir_chunk d k hL (by omega) hlt ((d.files.length : Int) - d.offset)
        (by rw [if_neg (by omega)])
      refine ⟨_, hr, ?_, rfl⟩
      simp only [hfresh, Int.toNat_zero, List.drop_zero, Int.sub_zero, Int.toNat_ofNat,
        List.take_length]
    · have hr := readDir_exhausted d k (by omega)
      rw [if_pos hk] at hr
      refine ⟨_, hr, ?_, rfl⟩
      have : d.files.length = 0 := by omega
      exact (List.length_eq_zero.mp this).symm

theorem C8_directory_pagination_witness :
    ∃ rs last, readDirLoop 1 4 sampleDir = some (rs ++ [last]) ∧
      last.list = [] ∧ last.err = some Error.eof ∧
      (∀ r ∈ rs, r.err = none ∧ r.list ≠ [] ∧ (r.list.length : Int) ≤ 1) ∧
      (rs.map (fun r => r.list)).flatten = sampleDir.files ∧
      rs.length = (sampleDir.files.length + (1 : Int).toNat - 1) / (1 : Int).toNat ∧
      ((1 : Int) = 1 → rs.length = sampleDir.files.length) :=
  (C8_directory_pagination sampleDir 1 4 (by decide) rfl (by decide) (by decide)).1

/-! ## Sequential reads -/

theorem readLoop_drain (data : List Byte) (hL : (data.length : Int) ≤ maxInt64) :
    ∀ (fuel : Nat) (bufs : Nat → List Byte) (f : openFile), (∀ i, bufs i ≠ []) →
    f.data = data → 0 ≤ f.offset → f.offset ≤ (data.length : Int) →
    (data.length : Int) - f.offset < (fuel : Int) →
    ∃ rs last, readLoop bufs fuel f = some (rs ++ [last]) ∧
      last.n = 0 ∧ last.err = some Error.eof ∧
      (∀ r ∈ rs, r.err = none ∧ 1 ≤ r.n) ∧
      (rs.map (fun r => r.buf.take r.n.toNat)).flatten = data.drop f.offset.toNat ∧
      (rs.length : Int) ≤ (data.length : Int) - f.offset := by
  intro fuel
  induction fuel with
  | zero => intro bufs f _ _ _ h1 hf; exact absurd hf (by omega)
  | succ fuel ih =>
    intro bufs f hb hdata h0 h1 hf
    by_cases hlt : f.offset < (f.data.length : Int)
    · have hr := read_before_end f (bufs 0) (by rw [hdata]; exact hL) h0 hlt
      have htake := copy_take (bufs 0) (f.data.drop f.offset.toNat)
      have hfst := copy_fst (bufs 0) (f.data.drop f.offset.toNat)
      generalize copy (bufs 0) (f.data.drop f.offset.toNat) = cp at hr htake hfst
      have hpos : 0 < (bufs 0).length := List.length_pos.mpr (hb 0)
      rw [List.length_drop] at hfst
      rw [hdata] at hr htake hfst hlt
      obtain ⟨rs, last, hloop, hl1, hl2, hall, hjoin, hlen⟩ :=
        ih (fun i => bufs (i + 1)) { f with offset := f.offset + (cp.1 : Int) }
          (fun i => hb (i + 1)) hdata (by simp only []; omega) (by simp only []; omega)
          (by simp only []; omega)
      rw [hdata] at hloop
      simp only [] at hjoin hlen
      refine ⟨⟨(cp.1 : Int), none, cp.2, { f with offset := f.offset + (cp.1 : Int) }⟩ :: rs,
        last, ?_, hl1, hl2, ?_, ?_, ?_⟩
      · simp only [readLoop, hr, hloop, hdata, List.cons_append]
      · intro r hmem
        rcases List.mem_cons.mp hmem with h | h
        · subst h
          exact ⟨rfl, by simp only []; omega⟩
        · exact hall r h
      · simp only [List.map_cons, List.flatten_cons, hjoin, Int.toNat_ofNat, htake]
        have hd : (f.offset + (cp.1 : Int)).toNat = f.offset.toNat + cp.1 := by omega
        rw [hd, ← List.drop_drop, List.take_append_drop]
      · simp only [List.length_cons]
        push_cast
        omega
    · have hr := read_at_end f (bufs 0) (by omega)
      rw [hdata] at hlt
      refine ⟨[], ⟨0, some Error.eof, bufs 0, f⟩, ?_, rfl, rfl, ?_, ?_, ?_⟩
      · simp only [readLoop, hr, List.nil_append]
      · intro r hmem; cases hmem
      · simp only [List.map_nil, List.flatten_nil]
        rw [List.drop_of_length_le (by omega)]
      · simp only [List.length_nil]; omega

theorem open_fileHandle (validPath : String → Bool) (fsys : FS) (name : String) (f : openFile)
    (h : fsys.Open validPath name = some (some (File.fileHandle f), none)) :
    f.offset = 0 ∧ fsys.ReadFile validPath name = (some f.data, none) := by
  unfold FS.Open at h
  unfold FS.ReadFile
  generalize fsys.getContents validPath name = g at h ⊢
  obtain ⟨fc, dc, err⟩ := g
  cases err with
  | some e => simp at h
  | none =>
    cases dc with
    | some l => simp at h
    | none =>
      cases fc with
      | none => simp at h
      | some c =>
        simp only [] at h ⊢
        cases hc : c.content with
        | error e => rw [hc] at h; simp at h
        | ok bytes =>
          rw [hc] at h
          simp only [Option.some.injEq, Prod.mk.injEq, File.fileHandle.injEq, and_true] at h
          subst h
          exact ⟨rfl, rfl⟩

/-- C9: for a file handle `f` returned by `Open` and any buffers `bufs 0`,
`bufs 1`, ..., all non-empty, calling `Read` until it returns an error ends
within `len(data) + 1` calls: the calls before the last, at most `len(data)`
of them, each return `n ≥ 1` with a nil error, the bytes they return,
concatenated, are `data`, and the last call returns `(0, EOF)`; and
`ReadFile` of the same path returns exactly `data` with a nil error. -/
theorem C9_sequential_read (validPath : String → Bool) (fsys : FS) (name : String)
    (f : openFile) (bufs : Nat → List Byte) (fuel : Nat)
    (hopen : fsys.Open validPath name = some (some (File.fileHandle f), none))
    (hL : (f.data.length : Int) ≤ maxInt64)
    (hbufs : ∀ i, bufs i ≠ [])
    (hfuel : f.data.length < fuel) :
    (∃ rs last, readLoop bufs fuel f = some (rs ++ [last]) ∧
      last.n = 0 ∧ last.err = some Error.eof ∧
      rs.length ≤ f.data.length ∧
      (∀ r ∈ rs, r.err = none ∧ 1 ≤ r.n) ∧
      (rs.map (fun r => r.buf.take r.n.toNat)).flatten = f.data) ∧
    fsys.ReadFile validPath name = (some f.data, none) := by
  obtain ⟨hoff, hread⟩ := open_fileHandle validPath fsys name f hopen
  refine ⟨?_, hread⟩
  obtain ⟨rs, last, hloop, hl1, hl2, hall, hjoin, hlen⟩ :=
    readLoop_drain f.data hL fuel bufs f hbufs rfl (by omega) (by omega) (by omega)
  rw [hoff] at hjoin hlen
  simp only [Int.toNat_zero, List.drop_zero] at hjoin
  exact ⟨rs, last, hloop, hl1, hl2, by omega, hall, hjoin⟩

theorem C9_sequential_read_witness :
    (∃ rs last, readLoop (fun _ => [0, 0]) 4 sampleFile = some (rs ++ [last]) ∧
      last.n = 0 ∧ last.err = some Error.eof ∧
      rs.length ≤ sampleFile.data.length ∧
      (∀ r ∈ rs, r.err = none ∧ 1 ≤ r.n) ∧
      (rs.map (fun r => r.buf.take r.n.toNat)).flatten = sampleFile.data) ∧
    sampleFS.ReadFile (fun _ => true) "go.mod" = (some sampleFile.data, none) :=
  C9_sequential_read (fun _ => true) sampleFS "go.mod" sampleFile (fun _ => [0, 0]) 4
    rfl (by decide) (fun _ => List.cons_ne_nil 0 [0]) (by decide)

/-! ## The offset invariant -/

theorem seek_offset_bounds (f : openFile) (o w : Int)
    (h0 : 0 ≤ f.offset) (h1 : f.offset ≤ (f.data.length : Int)) :
    0 ≤ (f.Seek o w).file.offset ∧ (f.Seek o w).file.offset ≤ (f.data.length : Int) ∧
      (f.Seek o w).file.data = f.data ∧
      ((f.Seek o w).err = none → (f.Seek o w).file.offset = (f.Seek o w).pos) := by
  unfold openFile.Seek
  simp only []
  split
  · exact ⟨h0, h1, rfl, fun h => by cases h⟩
  · refine ⟨?_, ?_, rfl, fun _ => rfl⟩ <;> simp only [] <;> omega

theorem stepFile_invariant (f : openFile) (op : FileOp)
    (hL : (f.data.length : Int) ≤ maxInt64)
    (h0 : 0 ≤ f.offset) (h1 : f.offset ≤ (f.data.length : Int)) :
    ∃ ret f1, stepFile f op = some (ret, f1) ∧ f1.data = f.data ∧
      0 ≤ f1.offset ∧ f1.offset ≤ (f.data.length : Int) ∧
      (∀ n err buf, ret = FileRet.read n err buf → err = none ∨ err = some Error.eof) := by
  cases op with
  | read b =>
    by_cases hlt : f.offset < (f.data.length : Int)
    · have hr := read_before_end f b hL h0 hlt
      have hfst := copy_fst b (f.data.drop f.offset.toNat)
      rw [List.length_drop] at hfst
      refine ⟨FileRet.read ((copy b (f.data.drop f.offset.toNat)).1 : Int) none
        (copy b (f.data.drop f.offset.toNat)).2,
        { f with offset := f.offset + ((copy b (f.data.drop f.offset.toNat)).1 : Int) },
        by simp only [stepFile, hr, Option.map_some'], rfl, ?_, ?_, ?_⟩
      · simp only []; omega
      · simp only []; omega
      · intro n err buf h
        simp only [FileRet.read.injEq] at h
        exact Or.inl h.2.1.symm
    · have hr := read_at_end f b (by omega)
      refine ⟨FileRet.read 0 (some Error.eof) b, f,
        by simp only [stepFile, hr, Option.map_some'], rfl, h0, h1, ?_⟩
      intro n err buf h
      simp only [FileRet.read.injEq] at h
      exact Or.inr h.2.1.symm
  | seek o w =>
    obtain ⟨hs0, hs1, hsd, _⟩ := seek_offset_bounds f o w h0 h1
    exact ⟨_, _, rfl, hsd, hs0, hs1, fun n err buf h => by cases h⟩
  | readAt b o =>
    obtain ⟨ret, hs, _⟩ := stepFile_readAt f b o
    refine ⟨ret, f, hs, rfl, h0, h1, ?_⟩
    intro n err buf h
    obtain ⟨r, hr, _⟩ := readAt_file f b o
    simp only [stepFile, hr, Option.map_some', Option.some.injEq, Prod.mk.injEq] at hs
    rw [h] at hs
    cases hs.1
  | stat => exact ⟨_, _, rfl, rfl, h0, h1, fun n err buf h => by cases h⟩
  | close => exact ⟨_, _, rfl, rfl, h0, h1, fun n err buf h => by cases h⟩

theorem runFile_invariant (ops : List FileOp) : ∀ (f : openFile),
    (f.data.length : Int) ≤ maxInt64 → 0 ≤ f.offset → f.offset ≤ (f.data.length : Int) →
    ∃ rets f1, runFile f ops = some (rets, f1) ∧ f1.data = f.data ∧
      0 ≤ f1.offset ∧ f1.offset ≤ (f.data.length : Int) ∧
      (∀ n err buf, FileRet.read n err buf ∈ rets → err = none ∨ err = some Error.eof) := by
  induction ops with
  | nil =>
    intro f _ h0 h1
    exact ⟨[], f, rfl, rfl, h0, h1, fun n err buf h => by cases h⟩
  | cons op ops ih =>
    intro f hL h0 h1
    obtain ⟨ret, f1, hs, hd, hf0, hf1, hret⟩ := stepFile_invariant f op hL h0 h1
    obtain ⟨rets, f2, hrun, hd2, hg0, hg1, hrets⟩ :=
      ih f1 (by rw [hd]; exact hL) hf0 (by rw [hd]; exact hf1)
    refine ⟨ret :: rets, f2, by simp only [runFile, hs, hrun], by rw [hd2, hd], hg0,
      by rw [hd] at hg1; exact hg1, ?_⟩
    intro n err buf hmem
    rcases List.mem_cons.mp hmem with h | h
    · exact hret n err buf h.symm
    · exact hrets n err buf h

/-- C10: for a file handle `f` returned by `Open` and every finite sequence of
`Read`, `Seek`, `ReadAt`, `Stat` and `Close` calls with any arguments, no call
panics (every slice `data[offset:]` is in bounds), the data are unchanged and
the offset after the calls satisfies `0 ≤ offset ≤ len(data)` (after each
call, every prefix of a sequence being a sequence); every `Read` among them
returns a nil error or `EOF`, never the invalid-argument error; and a `Seek`
that returns a nil error on the resulting handle leaves the offset it
returns, in `[0, len(data)]`. -/
theorem C10_offset_invariant (validPath : String → Bool) (fsys : FS) (name : String)
    (f : openFile) (ops : List FileOp)
    (hopen : fsys.Open validPath name = some (some (File.fileHandle f), none))
    (hL : (f.data.length : Int) ≤ maxInt64) :
    f.offset = 0 ∧
    ∃ rets f1, runFile f ops = some (rets, f1) ∧ f1.data = f.data ∧
      0 ≤ f1.offset ∧ f1.offset ≤ (f.data.length : Int) ∧
      (∀ n err buf, FileRet.read n err buf ∈ rets → err = none ∨ err = some Error.eof) ∧
      (∀ o w, (f1.Seek o w).err = none →
        (f1.Seek o w).file.offset = (f1.Seek o w).pos ∧
        0 ≤ (f1.Seek o w).file.offset ∧ (f1.Seek o w).file.offset ≤ (f.data.length : Int)) := by
  have hoff := (open_fileHandle validPath fsys name f hopen).1
  refine ⟨hoff, ?_⟩
  obtain ⟨rets, f1, hrun, hd, h0, h1, hrets⟩ :=
    runFile_invariant ops f hL (by omega) (by omega)
  refine ⟨rets, f1, hrun, hd, h0, h1, hrets, fun o w herr => ?_⟩
  obtain ⟨hs0, hs1, _, hpos⟩ := seek_offset_bounds f1 o w h0 (by rw [hd]; exact h1)
  rw [hd] at hs1
  exact ⟨hpos herr, hs0, hs1⟩

theorem C10_offset_invariant_witness :
    sampleFile.offset = 0 ∧
    ∃ rets f1, runFile sampleFile [FileOp.seek (-1) 2, FileOp.read [0, 0], FileOp.seek 5 1,
        FileOp.readAt [0] 7, FileOp.read [0], FileOp.stat, FileOp.close] = some (rets, f1) ∧
      f1.data = sampleFile.data ∧
      0 ≤ f1.offset ∧ f1.offset ≤ (sampleFile.data.length : Int) ∧
      (∀ n err buf, FileRet.read n err buf ∈ rets → err = none ∨ err = some Error.eof) ∧
      (∀ o w, (f1.Seek o w).err = none →
        (f1.Seek o w).file.offset = (f1.Seek o w).pos ∧
        0 ≤ (f1.Seek o w).file.offset ∧
        (f1.Seek o w).file.offset ≤ (sampleFile.data.length : Int)) :=
  C10_offset_invariant (fun _ => true) sampleFS "go.mod" sampleFile _ rfl (by decide)

/-! ## Seek with another whence -/

/-- C20: for every handle, every offset argument `o` and every whence other
than 0, 1 and 2, `Seek(o, whence)` is `Seek(o, 0)`: the same returned offset,
the same error and the same handle afterwards; the whence is not rejected. -/
theorem C20_seek_other_whence (f : openFile) (o w : Int)
    (h0 : w ≠ 0) (h1 : w ≠ 1) (h2 : w ≠ 2) :
    f.Seek o w = f.Seek o 0 := by
  unfold openFile.Seek seekTarget
  simp only [if_neg h0, if_neg h1, if_neg h2, if_true]

theorem C20_seek_other_whence_witness :
    sampleFile.Seek 2 3 = sampleFile.Seek 2 0 ∧ sampleFile.Seek 2 (-1) = sampleFile.Seek 2 0 :=
  ⟨C20_seek_other_whence sampleFile 2 3 (by decide) (by decide) (by decide),
    C20_seek_other_whence sampleFile 2 (-1) (by decide) (by decide) (by decide)⟩

/-! ## Metadata of a remote entry -/

theorem mode_dir (c : repoContent) (h : c.c.type = "dir") : c.Mode = ModeDir ||| 0o555 := by
  unfold repoContent.Mode
  rw [if_pos h]

theorem mode_file (c : repoContent) (h : c.c.type = "file") : c.Mode = 0o444 := by
  unfold repoContent.Mode
  rw [if_neg (by rw [h]; decide), if_pos h]

theorem mode_other (c : repoContent) (h1 : c.c.type ≠ "dir") (h2 : c.c.type ≠ "file") :
    c.Mode = 0 := by
  unfold repoContent.Mode
  rw [if_neg h1, if_neg h2]

theorem mode_cases (c : repoContent) :
    (c.c.type = "dir" ∧ c.Mode = ModeDir ||| 0o555) ∨
    (c.c.type ≠ "dir" ∧ (c.Mode = 0o444 ∨ c.Mode = 0)) := by
  by_cases h1 : c.c.type = "dir"
  · exact Or.inl ⟨h1, mode_dir c h1⟩
  · by_cases h2 : c.c.type = "file"
    · exact Or.inr ⟨h1, Or.inl (mode_file c h2)⟩
    · exact Or.inr ⟨h1, Or.inr (mode_other c h1 h2)⟩

/-- C12: for every remote entry, whatever its kind string (the empty one of an
absent kind included), `Mode()` is `ModeDir|0o555` for the kind `"dir"`,
`0o444` for the kind `"file"` and `0` for every other kind; it is a total
function, and in every case none of the write bits `0o222` is set. -/
theorem C12_mode_mapping (c : repoContent) :
    (c.c.type = "dir" → c.Mode = ModeDir ||| 0o555) ∧
    (c.c.type = "file" → c.Mode = 0o444) ∧
    (c.c.type ≠ "dir" → c.c.type ≠ "file" → c.Mode = 0) ∧
    c.Mode &&& 0o222 = 0 := by
  refine ⟨mode_dir c, mode_file c, mode_other c, ?_⟩
  rcases mode_cases c with ⟨_, h⟩ | ⟨_, h | h⟩ <;> rw [h] <;> decide

/-- C13: for every remote entry of any kind, `Type()` is `Mode() & ModeType`,
which is `ModeDir` for the kind `"dir"` and `0` for every other kind;
`IsDir()` is true exactly for the kind `"dir"` and agrees with the directory
bit of `Mode()` and with that of `Type()`; `Info()` returns the entry itself
with a nil error, so `Info().Mode().Type() = Type()` and
`Info().IsDir() = IsDir()`. -/
theorem C13_metadata_consistent (c : repoContent) :
    c.Type = c.Mode &&& ModeType ∧
    (c.c.type = "dir" → c.Type = ModeDir) ∧
    (c.c.type ≠ "dir" → c.Type = 0) ∧
    (c.IsDir = true ↔ c.c.type = "dir") ∧
    c.IsDir = FileMode.IsDir c.Mode ∧
    c.IsDir = FileMode.IsDir c.Type ∧
    c.Info = (c, none) ∧
    FileMode.Type c.Info.1.Mode = c.Type ∧
    c.Info.1.IsDir = c.IsDir := by
  have hdir : c.IsDir = true ↔ c.c.type = "dir" := by
    unfold repoContent.IsDir
    exact beq_iff_eq
  refine ⟨rfl, ?_, ?_, hdir, ?_, ?_, rfl, rfl, rfl⟩
  · intro h
    unfold repoContent.Type
    rw [mode_dir c h]
    decide
  · intro h
    unfold repoContent.Type
    rcases mode_cases c with ⟨h1, _⟩ | ⟨_, h2 | h2⟩
    · exact absurd h1 h
    · rw [h2]; decide
    · rw [h2]; decide
  · rcases mode_cases c with ⟨h1, h2⟩ | ⟨h1, h2 | h2⟩
    · rw [h2, hdir.mpr h1]; decide
    · have hf : c.IsDir = false := by
        cases hb : c.IsDir with
        | false => rfl
        | true => exact absurd (hdir.mp hb) h1
      rw [h2, hf]; decide
    · have hf : c.IsDir = false := by
        cases hb : c.IsDir with
        | false => rfl
        | true => exact absurd (hdir.mp hb) h1
      rw [h2, hf]; decide
  · unfold repoContent.Type
    rcases mode_cases c with ⟨h1, h2⟩ | ⟨h1, h2 | h2⟩
    · rw [h2, hdir.mpr h1]; decide
    · have hf : c.IsDir = false := by
        cases hb : c.IsDir with
        | false => rfl
        | true => exact absurd (hdir.mp hb) h1
      rw [h2, hf]; decide
    · have hf : c.IsDir = false := by
        cases hb : c.IsDir with
        | false => rfl
        | true => exact absurd (hdir.mp hb) h1
      rw [h2, hf]; decide

/-! ## The cursor invariant of a directory handle -/

theorem stepDir_invariant (d : openDir) (op : DirOp)
    (hL : (d.files.length : Int) ≤ maxInt64)
    (h0 : 0 ≤ d.offset) (h1 : d.offset ≤ (d.files.length : Int)) :
    ∃ ret d1, stepDir d op = some (ret, d1) ∧ d1.files = d.files ∧ d1.d = d.d ∧
      d.offset ≤ d1.offset ∧ d1.offset ≤ (d.files.length : Int) := by
  cases op with
  | readDir count =>
    by_cases hlt : d.offset < (d.files.length : Int)
    · have hr := readDir_chunk d count hL h0 hlt _ rfl
      generalize hn : (if 0 < count ∧ count < (d.files.length : Int) - d.offset then count
        else (d.files.length : Int) - d.offset) = n at hr
      have hnb : 0 < n ∧ d.offset + n ≤ (d.files.length : Int) := by
        rw [← hn]; split <;> omega
      refine ⟨DirRet.readDir ((d.files.drop d.offset.toNat).take n.toNat) none,
        { d with offset := d.offset + n },
        by simp only [stepDir, hr, Option.map_some'], rfl, rfl, ?_, ?_⟩
      · simp only []; omega
      · simp only []; omega
    · have hr := readDir_exhausted d count (by omega)
      exact ⟨DirRet.readDir [] (if count ≤ 0 then none else some Error.eof), d,
        by simp only [stepDir, hr, Option.map_some'], rfl, rfl, Int.le_refl _, h1⟩
  | read b => exact ⟨_, d, rfl, rfl, rfl, Int.le_refl _, h1⟩
  | stat => exact ⟨_, d, rfl, rfl, rfl, Int.le_refl _, h1⟩
  | close => exact ⟨_, d, rfl, rfl, rfl, Int.le_refl _, h1⟩

theorem runDir_invariant (ops : List DirOp) : ∀ (d : openDir),
    (d.files.length : Int) ≤ maxInt64 → 0 ≤ d.offset → d.offset ≤ (d.files.length : Int) →
    ∃ tr, runDir d ops = some tr ∧ tr.length = ops.length ∧
      List.Chain (fun a b : Int => a ≤ b) d.offset (tr.map (fun p => p.2.offset)) ∧
      ∀ p ∈ tr, p.2.files = d.files ∧ p.2.d = d.d ∧
        0 ≤ p.2.offset ∧ p.2.offset ≤ (d.files.length : Int) := by
  induction ops with
  | nil =>
    intro d _ _ _
    exact ⟨[], rfl, rfl, List.Chain.nil, fun p hp => by cases hp⟩
  | cons op ops ih =>
    intro d hL h0 h1
    obtain ⟨ret, d1, hs, hf, hd, hle, hub⟩ := stepDir_invariant d op hL h0 h1
    obtain ⟨tr, hrun, hlen, hchain, hall⟩ :=
      ih d1 (by rw [hf]; exact hL) (by omega) (by rw [hf]; exact hub)
    refine ⟨(ret, d1) :: tr, by simp only [runDir, hs, hrun], by simp only [List.length_cons, hlen],
      List.Chain.cons hle hchain, ?_⟩
    intro p hp
    rcases List.mem_cons.mp hp with h | h
    · subst h
      exact ⟨hf, hd, by simp only []; omega, hub⟩
    · obtain ⟨a, b, c, e⟩ := hall p h
      exact ⟨by rw [a, hf], by rw [b, hd], c, by rw [hf] at e; exact e⟩

theorem open_dirHandle (validPath : String → Bool) (fsys : FS) (name : String) (d : openDir)
    (h : fsys.Open validPath name = some (some (File.dirHandle d), none)) :
    d.offset = 0 ∧ d.d = ⟨name⟩ ∧
      ∃ dc, (fsys.getContents validPath name).2.1 = some dc ∧
        d.files = dc.map (fun c => ⟨c⟩) := by
  unfold FS.Open at h
  generalize fsys.getContents validPath name = g at h ⊢
  obtain ⟨fc, dc, err⟩ := g
  cases err with
  | some e => simp at h
  | none =>
    cases dc with
    | some l =>
      simp only [Option.some.injEq, Prod.mk.injEq, File.dirHandle.injEq, and_true] at h
      subst h
      exact ⟨rfl, rfl, l, rfl, rfl⟩
    | none =>
      cases fc with
      | none => simp at h
      | some c =>
        simp only [] at h
        cases hc : c.content with
        | error e => rw [hc] at h; simp at h
        | ok bytes => rw [hc] at h; simp at h

/-- C11: for a directory handle `d` returned by `Open` (cursor 0) over `N`
entries and every finite sequence of `ReadDir(count)` (any integer count),
`Read`, `Stat` and `Close` calls, no call panics (every index `d.offset+i` is
in bounds), the cursor after each call is at least the cursor before it and
lies in `[0, N]`, and the entries and the directory metadata of the handle are
never changed. -/
theorem C11_cursor_invariant (validPath : String → Bool) (fsys : FS) (name : String)
    (d : openDir) (ops : List DirOp)
    (hopen : fsys.Open validPath name = some (some (File.dirHandle d), none))
    (hL : (d.files.length : Int) ≤ maxInt64) :
    d.offset = 0 ∧
    ∃ tr, runDir d ops = some tr ∧ tr.length = ops.length ∧
      List.Chain (fun a b : Int => a ≤ b) d.offset (tr.map (fun p => p.2.offset)) ∧
      ∀ p ∈ tr, p.2.files = d.files ∧ p.2.d = d.d ∧
        0 ≤ p.2.offset ∧ p.2.offset ≤ (d.files.length : Int) := by
  have hoff := (open_dirHandle validPath fsys name d hopen).1
  exact ⟨hoff, runDir_invariant ops d hL (by omega) (by omega)⟩

theorem C11_cursor_invariant_witness :
    (⟨⟨"."⟩, [sampleEntry "go.mod" [7, 8, 9], ⟨sampleSubdir "rate"⟩], 0⟩ : openDir).offset = 0 ∧
    ∃ tr, runDir ⟨⟨"."⟩, [sampleEntry "go.mod" [7, 8, 9], ⟨sampleSubdir "rate"⟩], 0⟩
        [DirOp.readDir 1, DirOp.read [0], DirOp.readDir (-3), DirOp.stat, DirOp.readDir 0,
          DirOp.readDir 4, DirOp.close] = some tr ∧
      tr.length = 7 ∧
      List.Chain (fun a b : Int => a ≤ b) 0 (tr.map (fun p => p.2.offset)) ∧
      ∀ p ∈ tr,
        p.2.files = [sampleEntry "go.mod" [7, 8, 9], ⟨sampleSubdir "rate"⟩] ∧
        p.2.d = ⟨"."⟩ ∧ 0 ≤ p.2.offset ∧ p.2.offset ≤ 2 :=
  C11_cursor_invariant (fun _ => true) sampleRootFS "."
    ⟨⟨"."⟩, [sampleEntry "go.mod" [7, 8, 9], ⟨sampleSubdir "rate"⟩], 0⟩ _ rfl (by decide)

/-! ## Byte reads and metadata of a directory handle -/

/-- C19: for a directory handle `d` returned by `Open(name)`, in the state
after `Open` and in every state reached by a sequence of calls, and for every
buffer, `Read` returns `(0, PathError("read", name, "is a directory"))` and
leaves buffer and handle (its cursor included) as they were; `Stat()` returns
with a nil error metadata whose `Name()` is `name`, `Size()` is 0, `IsDir()` is
true, `Mode()` is `ModeDir|0o555` and `ModTime()` is the zero time, whatever
the listing holds. -/
theorem C19_directory_handle (validPath : String → Bool) (fsys : FS) (name : String)
    (d : openDir) (ops : List DirOp)
    (hopen : fsys.Open validPath name = some (some (File.dirHandle d), none))
    (hL : (d.files.length : Int) ≤ maxInt64) :
    ∃ tr, runDir d ops = some tr ∧
      ∀ d1, (d1 = d ∨ ∃ p ∈ tr, p.2 = d1) →
        (∀ b, d1.Read b =
          ⟨0, some (Error.pathError "read" name (Errno.other "is a directory")), b, d1⟩) ∧
        d1.Stat.2 = none ∧ d1.Stat.1.Name = name ∧ d1.Stat.1.Size = 0 ∧
        d1.Stat.1.IsDir = true ∧ d1.Stat.1.Mode = ModeDir ||| 0o555 ∧
        d1.Stat.1.ModTime = Time.zero := by
  obtain ⟨hoff, hd, _⟩ := open_dirHandle validPath fsys name d hopen
  obtain ⟨tr, hrun, _, _, hall⟩ := runDir_invariant ops d hL (by omega) (by omega)
  refine ⟨tr, hrun, fun d1 h1 => ?_⟩
  have hd1 : d1.d = ⟨name⟩ := by
    rcases h1 with h | ⟨p, hp, h⟩
    · rw [h, hd]
    · rw [← h, (hall p hp).2.1, hd]
  refine ⟨fun b => ?_, rfl, ?_, rfl, rfl, rfl, rfl⟩
  · unfold openDir.Read dir.Name
    rw [hd1]
  · unfold openDir.Stat dir.Name
    rw [hd1]

theorem C19_directory_handle_witness :
    ∃ tr, runDir ⟨⟨"."⟩, [sampleEntry "go.mod" [7, 8, 9], ⟨sampleSubdir "rate"⟩], 0⟩
        [DirOp.readDir 1, DirOp.read [0]] = some tr ∧
      ∀ d1, (d1 = ⟨⟨"."⟩, [sampleEntry "go.mod" [7, 8, 9], ⟨sampleSubdir "rate"⟩], 0⟩ ∨
          ∃ p ∈ tr, p.2 = d1) →
        (∀ b, d1.Read b =
          ⟨0, some (Error.pathError "read" "." (Errno.other "is a directory")), b, d1⟩) ∧
        d1.Stat.2 = none ∧ d1.Stat.1.Name = "." ∧ d1.Stat.1.Size = 0 ∧
        d1.Stat.1.IsDir = true ∧ d1.Stat.1.Mode = ModeDir ||| 0o555 ∧
        d1.Stat.1.ModTime = Time.zero :=
  C19_directory_handle (fun _ => true) sampleRootFS "."
    ⟨⟨"."⟩, [sampleEntry "go.mod" [7, 8, 9], ⟨sampleSubdir "rate"⟩], 0⟩ _ rfl (by decide)

/-! ## The facade: resolution outcomes -/

theorem getContents_valid (validPath : String → Bool) (fsys : FS) (name : String)
    (hvalid : validPath name = true) :
    fsys.getContents validPath name =
      match (fsys.rs fsys.owner fsys.repo name).2.2 with
      | some err => (none, none, some err)
      | none => ((fsys.rs fsys.owner fsys.repo name).1, (fsys.rs fsys.owner fsys.repo name).2.1,
          none) := by
  unfold FS.getContents
  rw [hvalid]
  rfl

theorem getContents_invalid (validPath : String → Bool) (fsys : FS) (name : String)
    (hinvalid : validPath name = false) :
    fsys.getContents validPath name =
      (none, none, some (Error.pathError "open" name Errno.invalid)) := by
  unfold FS.getContents
  rw [hinvalid]
  rfl

/-- C16: for a path accepted by the validity check whose resolution succeeds:
when the client returns a listing and no file descriptor, `ReadFile` returns
nil bytes and `PathError("open", name, ErrNotExist)`; when it returns a file
descriptor and no listing, `ReadDir` returns nil entries and the same error. -/
theorem C16_kind_mismatch (validPath : String → Bool) (fsys : FS) (name : String)
    (hvalid : validPath name = true) :
    (∀ dc, fsys.rs fsys.owner fsys.repo name = (none, some dc, none) →
      fsys.ReadFile validPath name =
        (none, some (Error.pathError "open" name Errno.notExist))) ∧
    (∀ fc, fsys.rs fsys.owner fsys.repo name = (some fc, none, none) →
      fsys.ReadDir validPath name =
        (none, some (Error.pathError "open" name Errno.notExist))) := by
  have hg := getContents_valid validPath fsys name hvalid
  constructor
  · intro dc hrs
    rw [hrs] at hg
    unfold FS.ReadFile
    rw [hg]
  · intro fc hrs
    rw [hrs] at hg
    unfold FS.ReadDir
    rw [hg]

theorem C16_kind_mismatch_witness :
    sampleRootFS.ReadFile ValidPath "rate" =
      (none, some (Error.pathError "open" "rate" Errno.notExist)) ∧
    sampleFS.ReadDir ValidPath "go.mod" =
      (none, some (Error.pathError "open" "go.mod" Errno.notExist)) :=
  ⟨(C16_kind_mismatch ValidPath sampleRootFS "rate" (by decide)).1 _ rfl,
    (C16_kind_mismatch ValidPath sampleFS "go.mod" (by decide)).2 _ rfl⟩

/-- C17: for a path accepted by the validity check: when the client returns an
error `e`, `Open`, `ReadFile` and `ReadDir` each return exactly `e` with a nil
handle, nil bytes and nil entries; when the client returns a single file
descriptor whose content fails to decode with the error `e`, `Open` and
`ReadFile` return `e` with no handle and no bytes. -/
theorem C17_upstream_errors (validPath : String → Bool) (fsys : FS) (name : String)
    (hvalid : validPath name = true) :
    (∀ e, (fsys.rs fsys.owner fsys.repo name).2.2 = some e →
      fsys.Open validPath name = some (none, some e) ∧
      fsys.ReadFile validPath name = (none, some e) ∧
      fsys.ReadDir validPath name = (none, some e)) ∧
    (∀ fc e, fsys.rs fsys.owner fsys.repo name = (some fc, none, none) →
      fc.content = Except.error e →
      fsys.Open validPath name = some (none, some e) ∧
      fsys.ReadFile validPath name = (none, some e)) := by
  have hg := getContents_valid validPath fsys name hvalid
  constructor
  · intro e he
    rw [he] at hg
    unfold FS.Open FS.ReadFile FS.ReadDir
    rw [hg]
    exact ⟨rfl, rfl, rfl⟩
  · intro fc e hrs hc
    rw [hrs] at hg
    unfold FS.Open FS.ReadFile
    rw [hg]
    constructor <;> simp only [hc]

theorem C17_upstream_errors_witness :
    (sampleFS.Open ValidPath "LICENSE" = some (none, some (Error.upstream "404 Not Found")) ∧
      sampleFS.ReadFile ValidPath "LICENSE" = (none, some (Error.upstream "404 Not Found")) ∧
      sampleFS.ReadDir ValidPath "LICENSE" = (none, some (Error.upstream "404 Not Found"))) ∧
    (sampleBrokenFS.Open ValidPath "broken" =
        some (none, some (Error.upstream "unsupported content encoding")) ∧
      sampleBrokenFS.ReadFile ValidPath "broken" =
        (none, some (Error.upstream "unsupported content encoding"))) :=
  ⟨(C17_upstream_errors ValidPath sampleFS "LICENSE" (by decide)).1 _ rfl,
    (C17_upstream_errors ValidPath sampleBrokenFS "broken" (by decide)).2 _ _ rfl rfl⟩

/-! ## The facade: directory listings -/

theorem readDir_rest (d : openDir) (k : Int)
    (hL : (d.files.length : Int) ≤ maxInt64)
    (h0 : 0 ≤ d.offset) (h1 : d.offset ≤ (d.files.length : Int)) (hk : k ≤ 0) :
    ∃ r, d.ReadDir k = some r ∧ r.err = none ∧ r.list = d.files.drop d.offset.toNat := by
  by_cases hlt : d.offset < (d.files.length : Int)
  · have hr := readDir_chunk d k hL h0 hlt ((d.files.length : Int) - d.offset)
      (by rw [if_neg (by omega)])
    refine ⟨_, hr, rfl, ?_⟩
    apply List.take_of_length_le
    rw [List.length_drop]; omega
  · have hr := readDir_exhausted d k (by omega)
    rw [if_pos hk] at hr
    refine ⟨_, hr, rfl, ?_⟩
    simp only []
    rw [List.drop_of_length_le (by omega)]

/-- C18: for a path accepted by the validity check whose resolution is a
listing `D` with a nil error, `ReadDir` returns with a nil error a sequence of
`len(D)` metadata values, the `i`-th wrapping `D[i]`: its `Name()` and `Size()`
are those of `D[i]` and its `IsDir()` is true exactly when the kind of `D[i]`
is `"dir"`.  `Open` of the same path returns a directory handle on which
`ReadDir(-1)` returns the same sequence with a nil error. -/
theorem C18_facade_listing (validPath : String → Bool) (fsys : FS) (name : String)
    (fc : Option RepositoryContent) (D : List RepositoryContent)
    (hvalid : validPath name = true)
    (hrs : fsys.rs fsys.owner fsys.repo name = (fc, some D, none))
    (hL : (D.length : Int) ≤ maxInt64) :
    ∃ l, fsys.ReadDir validPath name = (some l, none) ∧ l.length = D.length ∧
      (∀ (i : Nat) (h : i < D.length), ∃ e, l[i]? = some e ∧ e.c = D[i] ∧
        e.Name = D[i].name ∧ e.Size = D[i].size ∧ (e.IsDir = true ↔ D[i].type = "dir")) ∧
      ∃ d r, fsys.Open validPath name = some (some (File.dirHandle d), none) ∧
        d.ReadDir (-1) = some r ∧ r.list = l ∧ r.err = none := by
  have hg := getContents_valid validPath fsys name hvalid
  rw [hrs] at hg
  refine ⟨D.map (fun c => ⟨c⟩), ?_, List.length_map _ _, ?_, ?_⟩
  · unfold FS.ReadDir
    rw [hg]
  · intro i h
    refine ⟨⟨D[i]⟩, ?_, rfl, rfl, rfl, ?_⟩
    · rw [List.getElem?_map, List.getElem?_eq_getElem h]
      rfl
    · unfold repoContent.IsDir
      exact beq_iff_eq
  · obtain ⟨r, hr, herr, hlist⟩ :=
      readDir_rest ⟨⟨name⟩, D.map (fun c => ⟨c⟩), 0⟩ (-1)
        (by simp only [List.length_map]; exact hL) (Int.le_refl 0)
        (by simp only [List.length_map]; omega) (by decide)
    refine ⟨⟨⟨name⟩, D.map (fun c => ⟨c⟩), 0⟩, r, ?_, hr, ?_, herr⟩
    · unfold FS.Open
      rw [hg]
    · rw [hlist]
      rfl

theorem C18_facade_listing_witness :
    ∃ l, sampleRootFS.ReadDir ValidPath "rate" = (some l, none) ∧ l.length = 2 ∧
      (∀ (i : Nat) (h : i < 2), ∃ e, l[i]? = some e ∧
        e.c = [(sampleEntry "go.mod" [7, 8, 9]).c, sampleSubdir "rate"][i] ∧
        e.Name = [(sampleEntry "go.mod" [7, 8, 9]).c, sampleSubdir "rate"][i].name ∧
        e.Size = [(sampleEntry "go.mod" [7, 8, 9]).c, sampleSubdir "rate"][i].size ∧
        (e.IsDir = true ↔
          [(sampleEntry "go.mod" [7, 8, 9]).c, sampleSubdir "rate"][i].type = "dir")) ∧
      ∃ d r, sampleRootFS.Open ValidPath "rate" = some (some (File.dirHandle d), none) ∧
        d.ReadDir (-1) = some r ∧ r.list = l ∧ r.err = none :=
  C18_facade_listing ValidPath sampleRootFS "rate" none
    [(sampleEntry "go.mod" [7, 8, 9]).c, sampleSubdir "rate"] (by decide) rfl (by decide)

/-! ## Path validity -/

theorem takeWhile_elem (e rest : List Char) (h : '/' ∉ e) :
    (e ++ '/' :: rest).takeWhile (fun c => c != '/') = e := by
  induction e with
  | nil => simp [List.takeWhile]
  | cons a e ih =>
    have ha : a ≠ '/' := fun hc => h (by rw [hc]; exact List.mem_cons_self _ _)
    have he : '/' ∉ e := fun hc => h (List.mem_cons_of_mem _ hc)
    rw [List.cons_append, List.takeWhile_cons_of_pos (by simpa using ha), ih he]

theorem takeWhile_last (e : List Char) (h : '/' ∉ e) :
    e.takeWhile (fun c => c != '/') = e := by
  induction e with
  | nil => rfl
  | cons a e ih =>
    have ha : a ≠ '/' := fun hc => h (by rw [hc]; exact List.mem_cons_self _ _)
    have he : '/' ∉ e := fun hc => h (List.mem_cons_of_mem _ hc)
    rw [List.takeWhile_cons_of_pos (by simpa using ha), ih he]

theorem badElem_iff (e : List Char) :
    badElem e = true ↔ (e = [] ∨ e = ['.'] ∨ e = ['.', '.']) := by
  unfold badElem
  exact decide_eq_true_iff

theorem validPathLoop_join (es : List (List Char)) : ∀ (fuel : Nat), es ≠ [] →
    (∀ e ∈ es, '/' ∉ e) → es.length ≤ fuel →
    validPathLoop fuel (joinElems es) = es.all (fun e => !badElem e) := by
  induction es with
  | nil => intro _ h; exact absurd rfl h
  | cons e t ih =>
    intro fuel _ hs hf
    have he : '/' ∉ e := hs e (List.mem_cons_self _ _)
    cases fuel with
    | zero => simp at hf
    | succ fuel =>
      cases t with
      | nil =>
        simp only [joinElems, validPathLoop, takeWhile_last e he, List.all_cons, List.all_nil,
          Bool.and_true]
        by_cases hb : e = [] ∨ e = ['.'] ∨ e = ['.', '.']
        · rw [if_pos hb, (badElem_iff e).mpr hb]; rfl
        · have hb2 : badElem e = false := by
            cases h : badElem e with
            | false => rfl
            | true => exact absurd ((badElem_iff e).mp h) hb
          rw [if_neg hb, if_pos trivial, hb2]; rfl
      | cons e2 t2 =>
        have hrec := ih fuel (List.cons_ne_nil e2 t2)
          (fun x hx => hs x (List.mem_cons_of_mem _ hx))
          (by simp only [List.length_cons] at hf ⊢; omega)
        simp only [joinElems, validPathLoop, takeWhile_elem e _ he, List.all_cons]
        by_cases hb : e = [] ∨ e = ['.'] ∨ e = ['.', '.']
        · rw [if_pos hb, (badElem_iff e).mpr hb]; rfl
        · have hb2 : badElem e = false := by
            cases h : badElem e with
            | false => rfl
            | true => exact absurd ((badElem_iff e).mp h) hb
          have hlen : ¬ e.length = (e ++ '/' :: joinElems (e2 :: t2)).length := by
            simp only [List.length_append, List.length_cons]; omega
          have hdrop : (e ++ '/' :: joinElems (e2 :: t2)).drop (e.length + 1) =
              joinElems (e2 :: t2) := by
            rw [show e ++ '/' :: joinElems (e2 :: t2) = (e ++ ['/']) ++ joinElems (e2 :: t2) by
              simp]
            exact List.drop_left' (by simp)
          rw [if_neg hb, if_neg hlen, hdrop, hrec, hb2]
          simp only [List.all_cons, Bool.not_false, Bool.true_and]

theorem joinElems_length (es : List (List Char)) : es.length ≤ (joinElems es).length + 1 := by
  induction es with
  | nil => simp [joinElems]
  | cons e t ih =>
    cases t with
    | nil => simp [joinElems]
    | cons e2 t2 =>
      simp only [joinElems, List.length_cons, List.length_append] at ih ⊢
      omega

theorem validPath_join (es : List (List Char)) (hne : es ≠ [])
    (hs : ∀ e ∈ es, '/' ∉ e) (hroot : joinElems es ≠ ['.']) :
    ValidPath (String.mk (joinElems es)) = es.all (fun e => !badElem e) := by
  unfold ValidPath
  have h1 : ¬ String.mk (joinElems es) = "." := by
    intro h
    apply hroot
    have h2 : ("." : String) = String.mk ['.'] := by decide
    rw [h2] at h
    exact congrArg String.data h
  rw [if_neg h1]
  exact validPathLoop_join es _ hne hs (joinElems_length es)

/-- C15: for every path that the validity check rejects, `Open`, `ReadFile`
and `ReadDir` each return `PathError("open", name, ErrInvalid)` with no
handle, no bytes and no entries, whatever the client would answer for the
path.  The paths rejected by `fs.ValidPath` include every slash-joined
sequence of elements, other than the root name `.`, with an empty element (so
the empty path, a leading slash, a trailing slash, two slashes in a row) or
a `.` or `..` element. -/
theorem C15_invalid_path (validPath : String → Bool) (fsys : FS) (name : String)
    (hinvalid : validPath name = false) :
    (fsys.Open validPath name =
        some (none, some (Error.pathError "open" name Errno.invalid)) ∧
      fsys.ReadFile validPath name = (none, some (Error.pathError "open" name Errno.invalid)) ∧
      fsys.ReadDir validPath name = (none, some (Error.pathError "open" name Errno.invalid))) ∧
    (∀ es : List (List Char), es ≠ [] → (∀ e ∈ es, '/' ∉ e) →
      (∃ e ∈ es, badElem e = true) → joinElems es ≠ ['.'] →
      ValidPath (String.mk (joinElems es)) = false) := by
  have hg := getContents_invalid validPath fsys name hinvalid
  refine ⟨⟨?_, ?_, ?_⟩, ?_⟩
  · unfold FS.Open
    rw [hg]
  · unfold FS.ReadFile
    rw [hg]
  · unfold FS.ReadDir
    rw [hg]
  · intro es hne hs hbad hroot
    rw [validPath_join es hne hs hroot]
    obtain ⟨e, he, hb⟩ := hbad
    cases hall : es.all (fun e => !badElem e) with
    | false => rfl
    | true =>
      have := List.all_eq_true.mp hall e he
      rw [hb] at this
      exact absurd this (by decide)

theorem C15_invalid_path_witness :
    (sampleRootFS.Open ValidPath "/rate" =
        some (none, some (Error.pathError "open" "/rate" Errno.invalid)) ∧
      sampleRootFS.ReadFile ValidPath "/rate" =
        (none, some (Error.pathError "open" "/rate" Errno.invalid)) ∧
      sampleRootFS.ReadDir ValidPath "/rate" =
        (none, some (Error.pathError "open" "/rate" Errno.invalid))) :=
  (C15_invalid_path ValidPath sampleRootFS "/rate" (by decide)).1

/-! ## The root of the file system -/

/-- C14, as stated, fails: a client that answers the empty path with a listing
does not make `Open("")` succeed; the validity check rejects the empty path and
`Open("")` returns `PathError("open", "", ErrInvalid)` and no handle. -/
theorem C14_empty_path_counterexample :
    sampleRootFS.rs sampleRootFS.owner sampleRootFS.repo "" =
      (none, some [(sampleEntry "go.mod" [7, 8, 9]).c, sampleSubdir "rate"], none) ∧
    ValidPath "" = false ∧
    sampleRootFS.Open ValidPath "" =
      some (none, some (Error.pathError "open" "" Errno.invalid)) ∧
    ¬ ∃ d, sampleRootFS.Open ValidPath "" = some (some (File.dirHandle d), none) := by
  have hopen : sampleRootFS.Open ValidPath "" =
      some (none, some (Error.pathError "open" "" Errno.invalid)) := by
    unfold FS.Open
    rw [getContents_invalid ValidPath sampleRootFS "" (by decide)]
  refine ⟨rfl, by decide, hopen, ?_⟩
  rintro ⟨d, hd⟩
  rw [hopen] at hd
  simp at hd

/-- C14, amended: the root is named `.`, not the empty path.  For every client
that answers the path `.` with a listing `R` and a nil error, the validity
check accepts `.` and `Open(".")` returns a directory handle named `.` with
cursor 0 whose entries are exactly `R` in order; the validity check rejects
the empty path, and `Open("")` returns `PathError("open", "", ErrInvalid)`
and no handle. -/
theorem C14_root_name (fsys : FS) (fc : Option RepositoryContent)
    (R : List RepositoryContent)
    (hroot : fsys.rs fsys.owner fsys.repo "." = (fc, some R, none)) :
    ValidPath "." = true ∧
    fsys.Open ValidPath "." =
      some (some (File.dirHandle ⟨⟨"."⟩, R.map (fun c => ⟨c⟩), 0⟩), none) ∧
    ValidPath "" = false ∧
    fsys.Open ValidPath "" = some (none, some (Error.pathError "open" "" Errno.invalid)) := by
  refine ⟨by decide, ?_, by decide, ?_⟩
  · have hg := getContents_valid ValidPath fsys "." (by decide)
    rw [hroot] at hg
    unfold FS.Open
    rw [hg]
  · unfold FS.Open
    rw [getContents_invalid ValidPath fsys "" (by decide)]

theorem C14_root_name_witness :
    ValidPath "." = true ∧
    sampleRootFS.Open ValidPath "." =
      some (some (File.dirHandle ⟨⟨"."⟩,
        [(sampleEntry "go.mod" [7, 8, 9]).c, sampleSubdir "rate"].map (fun c => ⟨c⟩), 0⟩), none) ∧
    ValidPath "" = false ∧
    sampleRootFS.Open ValidPath "" =
      some (none, some (Error.pathError "open" "" Errno.invalid)) :=
  C14_root_name sampleRootFS none [(sampleEntry "go.mod" [7, 8, 9]).c, sampleSubdir "rate"] rfl

end Ghfs
